import Mathlib

/-!
Verification development for the randomized Shell sort client/server split
(`client.py`, `server.py`, `encryption.py`, `obfi/crypto.py`).

The Python sources are shallowly embedded:
* ciphertexts of the Fernet-based `SecureEncryption` are modelled symbolically
  as records carrying the key, the per-encryption randomness and the packed
  plaintext bytes (an authenticated, randomised scheme: decryption under a
  different key fails);
* machine integers are `Nat`/`Int` with explicit bounds where the Python code
  packs to 32-bit words;
* the gRPC servicer (`ShellSortServer`) becomes a record of its fields, and
  each handler becomes a state-passing function; `context.abort` becomes an
  `Except.error` result (mutations performed before the abort persist, as they
  do on the Python object);
* the client's loops become structurally recursive functions threading the
  server state, a nonce counter, a seed counter and the trace of store
  operations the server observes.
-/

/-! ## Byte packing (`struct.pack(">I", v)` / `struct.unpack(">I", bs)`) -/

/-- Big-endian 4-byte representation of a natural number, as produced by
`struct.pack(">I", v)` for `v < 2^32`. -/
def packBytes (v : Nat) : List Nat :=
  [v / 16777216 % 256, v / 65536 % 256, v / 256 % 256, v % 256]

/-- `struct.pack(">I", v)`: succeeds exactly on `0 ≤ v < 2^32`
(raises `struct.error` otherwise). -/
def pack32 : Int → Option (List Nat)
  | .ofNat v => if v < 4294967296 then some (packBytes v) else none
  | .negSucc _ => none

/-- `struct.unpack(">I", bs)[0]`: requires exactly four bytes. -/
def unpack32 : List Nat → Option Nat
  | [b3, b2, b1, b0] => some (((b3 * 256 + b2) * 256 + b1) * 256 + b0)
  | _ => none

/-! ## `encryption.py`: `SecureEncryption` (Fernet) -/

/-- Symbolic Fernet token: a ciphertext produced under `key` with fresh
randomness `nonce`, carrying message bytes `msg`.  Fernet is authenticated,
so a token is decryptable exactly under the key it was produced with. -/
structure FToken where
  key : Nat
  nonce : Nat
  msg : List Nat
  deriving DecidableEq, Repr

/-- Symbolic `Fernet(key).encrypt(msg)` with explicit randomness. -/
def fernetEncrypt (key nonce : Nat) (msg : List Nat) : FToken :=
  { key := key, nonce := nonce, msg := msg }

/-- Symbolic `Fernet(key).decrypt(token)`: authenticated, fails on a token
not produced under `key`. -/
def fernetDecrypt (key : Nat) (t : FToken) : Option (List Nat) :=
  if t.key = key then some t.msg else none

/-- `SecureEncryption.encrypt`: rejects negative input (`ValueError`), packs
to 32-bit big-endian (`struct.error` out of range), then Fernet-encrypts. -/
def SecureEncryption.encrypt (key nonce : Nat) (position : Int) :
    Except String FToken :=
  if position < 0 then .error "ValueError"
  else
    match pack32 position with
    | some bs => .ok (fernetEncrypt key nonce bs)
    | none => .error "struct.error"

/-- `SecureEncryption.decrypt`: Fernet-decrypt (raising `IntegrityError` on
authentication failure) then unpack 32-bit big-endian. -/
def SecureEncryption.decrypt (key : Nat) (t : FToken) : Except String Nat :=
  match fernetDecrypt key t with
  | none => .error "IntegrityError"
  | some bs =>
    match unpack32 bs with
    | some v => .ok v
    | none => .error "struct.error"

/-! ## `server.py`: the oblivious store -/

/-- Swap the entries at positions `i` and `j` (`x[i], x[j] = x[j], x[i]`). -/
def swapL (l : List Nat) (i j : Nat) : List Nat :=
  (l.set i (l.getD j 0)).set j (l.getD i 0)

/-- Python's `random.Random(seed).shuffle` is a Fisher-Yates shuffle:
`for i in reversed(range(1, len(x))): j = randbelow(i+1); swap x[i] x[j]`.
The PRNG draw at loop index `i` is abstracted as `randb i`, reduced modulo
`i+1` because `_randbelow(i+1)` lands in `[0, i+1)`. -/
def pyShuffle (randb : Nat → Nat) (l : List Nat) : List Nat :=
  ((List.range' 1 (l.length - 1)).reverse).foldl
    (fun acc i => swapL acc i (randb i % (i + 1))) l

/-- The permutation the server materialises for a `(size, seed)` cache key:
`perm = list(range(size)); random.Random(seed).shuffle(perm)`, with the
seeded PRNG's draw stream abstracted as `rand seed`. -/
def permFor (rand : Nat → Nat → Nat) (size seed : Nat) : List Nat :=
  pyShuffle (rand seed) (List.range size)

/-- gRPC status codes the store aborts with. -/
inductive StoreError where
  | outOfRange
  | failedPrecondition
  | invalidArgument
  deriving DecidableEq, Repr

/-- The fields of `ShellSortServer` used by the sorting phase (the phase-0
element-upload fields are untouched by every operation modelled here and are
omitted).  The permutation cache is an association list keyed by
`(size, seed)`. -/
structure ServerState where
  hash_array : List FToken
  hash_finalized : Bool
  encrypted_array : List FToken
  n : Nat
  comparison_count : Nat
  write_count : Nat
  perm_cache : List ((Nat × Nat) × List Nat)
  deriving DecidableEq, Repr

/-- `ShellSortServer.__init__`. -/
def ShellSortServer.new : ServerState :=
  { hash_array := [], hash_finalized := false, encrypted_array := [], n := 0,
    comparison_count := 0, write_count := 0, perm_cache := [] }

/-- `Initialize`: replace the sorting array, reset both counters and clear the
permutation cache; respond with `(success, array_size)`. -/
def ShellSortServer.Initialize (s : ServerState) (cells : List FToken) :
    (Bool × Nat) × ServerState :=
  ((true, cells.length),
   { s with encrypted_array := cells, n := cells.length,
            comparison_count := 0, write_count := 0, perm_cache := [] })

/-- `UseHashArrayForSorting`: aborts `FailedPrecondition` unless the hash
array is finalized; otherwise copies it into the sorting array, resets both
counters and clears the permutation cache. -/
def ShellSortServer.UseHashArrayForSorting (s : ServerState) :
    Except StoreError (Bool × Nat) × ServerState :=
  if s.hash_finalized then
    (.ok (true, s.hash_array.length),
     { s with encrypted_array := s.hash_array, n := s.hash_array.length,
              comparison_count := 0, write_count := 0, perm_cache := [] })
  else (.error .failedPrecondition, s)

/-- Default token used to express Python's list indexing (the handlers only
index within bounds). -/
def dTok : FToken := { key := 0, nonce := 0, msg := [] }

/-- `GetPair`: the comparison counter is incremented first; then the bounds
check aborts `OUT_OF_RANGE` (the increment persists on the servicer object),
else the two ciphertexts are returned.  Indices are the signed wire values. -/
def ShellSortServer.GetPair (s : ServerState) (idx_a idx_b : Int) :
    Except StoreError (FToken × FToken) × ServerState :=
  let s1 := { s with comparison_count := s.comparison_count + 1 }
  if 0 ≤ idx_a ∧ idx_a < (s.n : Int) ∧ 0 ≤ idx_b ∧ idx_b < (s.n : Int) then
    (.ok (s.encrypted_array.getD idx_a.toNat dTok,
          s.encrypted_array.getD idx_b.toNat dTok), s1)
  else (.error .outOfRange, s1)

/-- `WritePair`: bounds check aborts `OUT_OF_RANGE` before any mutation; on
success both cells are blindly overwritten and the write counter is
incremented. -/
def ShellSortServer.WritePair (s : ServerState) (idx_a idx_b : Int)
    (na nb : FToken) : Except StoreError Unit × ServerState :=
  if 0 ≤ idx_a ∧ idx_a < (s.n : Int) ∧ 0 ≤ idx_b ∧ idx_b < (s.n : Int) then
    (.ok (),
     { s with
        encrypted_array :=
          (s.encrypted_array.set idx_a.toNat na).set idx_b.toNat nb,
        write_count := s.write_count + 1 })
  else (.error .outOfRange, s)

/-- `GetMate`: bounds check aborts `OUT_OF_RANGE`; then the permutation for
`(size, seed)` is looked up in the cache, materialised on a miss, and its
`i`-th entry returned.  `rand` abstracts the seeded PRNG draw stream. -/
def ShellSortServer.GetMate (rand : Nat → Nat → Nat) (s : ServerState)
    (size seed i : Nat) : Except StoreError Nat × ServerState :=
  if i < size then
    match s.perm_cache.lookup (size, seed) with
    | some perm => (.ok (perm.getD i 0), s)
    | none =>
      let perm := permFor rand size seed
      (.ok (perm.getD i 0),
       { s with perm_cache := ((size, seed), perm) :: s.perm_cache })
  else (.error .outOfRange, s)

/-- `GetFinalArray`: returns the array and both counters; no mutation. -/
def ShellSortServer.GetFinalArray (s : ServerState) :
    (List FToken × Nat × Nat) × ServerState :=
  ((s.encrypted_array, s.comparison_count, s.write_count), s)

/-! ## `client.py`: the sort orchestrator -/

/-- One store operation as observed by the server: the operation kind and its
index arguments (the obliviousness claim is about this sequence). -/
inductive StoreOp where
  | getMate (size seed i : Nat)
  | getPair (a b : Nat)
  | writePair (a b : Nat)
  deriving DecidableEq, Repr

/-- Client-side execution state: the server it talks to, a counter supplying
the fresh randomness of each `SecureEncryption.encrypt` call, the counter
indexing into the stream of generated seeds (`generate_seed`), and the trace
of store operations issued so far. -/
structure Run where
  server : ServerState
  nonceCtr : Nat
  seedCtr : Nat
  trace : List StoreOp
  deriving DecidableEq, Repr

/-- The pair ordering of `compare_and_prepare_writes`: ascending when
`idx_a < idx_b`, descending otherwise (`(a, b) if a <= b else (b, a)` and
`(a, b) if a >= b else (b, a)`). -/
def orderedPair (idx_a idx_b a b : Nat) : Nat × Nat :=
  if idx_a < idx_b then (if a ≤ b then (a, b) else (b, a))
  else (if a ≥ b then (a, b) else (b, a))

/-- The two decrypt calls of `compare_and_prepare_writes` followed by the
ordering; a decryption failure propagates (the client aborts). -/
def decryptOrder (key idx_a idx_b : Nat) (ca cb : FToken) :
    Except String (Nat × Nat) :=
  match SecureEncryption.decrypt key ca, SecureEncryption.decrypt key cb with
  | .ok a, .ok b => .ok (orderedPair idx_a idx_b a b)
  | _, _ => .error "IntegrityError"

/-- The two re-encryptions of `compare_and_prepare_writes`, consuming nonces
`nonce` and `nonce + 1` (fresh randomness per encryption). -/
def encryptPair (key nonce : Nat) (xy : Nat × Nat) :
    Except String (FToken × FToken) :=
  match SecureEncryption.encrypt key nonce (xy.1 : Int),
        SecureEncryption.encrypt key (nonce + 1) (xy.2 : Int) with
  | .ok ea, .ok eb => .ok (ea, eb)
  | _, _ => .error "EncryptError"

/-- `ShellSortClient.compare_and_prepare_writes`: fetch the pair, decrypt,
order ascending when `idx_a < idx_b` and descending otherwise, and return the
two fresh re-encryptions.  (The body is split across `decryptOrder` and
`encryptPair` above, in the statement order of the Python method.) -/
def ShellSortClient.compare_and_prepare_writes (key nonce : Nat)
    (s : ServerState) (idx_a idx_b : Nat) :
    Except String ((FToken × FToken) × ServerState) :=
  let gp := ShellSortServer.GetPair s idx_a idx_b
  match gp.1 with
  | .error _ => .error "OutOfRange"
  | .ok (ca, cb) =>
    match decryptOrder key idx_a idx_b ca cb with
    | .error e => .error e
    | .ok xy =>
      match encryptPair key nonce xy with
      | .error e => .error e
      | .ok pair => .ok (pair, gp.2)

/-- One compare-exchange as issued inside `region_compare_exchange`:
`compare_and_prepare_writes` followed by `write_pair` on the same indices,
recording the `GetPair` and `WritePair` operations in the trace. -/
def compare_exchange (key : Nat) (r : Run) (idx_a idx_b : Nat) :
    Except String Run :=
  match ShellSortClient.compare_and_prepare_writes key r.nonceCtr r.server
      idx_a idx_b with
  | .error e => .error e
  | .ok ((ea, eb), s1) =>
    let wp := ShellSortServer.WritePair s1 idx_a idx_b ea eb
    match wp.1 with
    | .error _ => .error "OutOfRange"
    | .ok _ =>
      .ok { server := wp.2, nonceCtr := r.nonceCtr + 2, seedCtr := r.seedCtr,
            trace := r.trace ++ [.getPair idx_a idx_b,
                                 .writePair idx_a idx_b] }

/-- The inner loop of one matching: for each `i` in order, fetch
`mate i` from the server and compare-exchange
`(a_start + i, b_start + mate i)`. -/
def runMatching (key : Nat) (rand : Nat → Nat → Nat)
    (a_start b_start size seed : Nat) (r : Run) :
    List Nat → Except String Run
  | [] => .ok r
  | i :: rest =>
    let gm := ShellSortServer.GetMate rand r.server size seed i
    let r1 := { r with server := gm.2,
                       trace := r.trace ++ [.getMate size seed i] }
    match gm.1 with
    | .error _ => .error "OutOfRange"
    | .ok mate_i =>
      match compare_exchange key r1 (a_start + i) (b_start + mate_i) with
      | .error e => .error e
      | .ok r2 => runMatching key rand a_start b_start size seed r2 rest

/-- `region_compare_exchange`: `c` matchings between the two regions; each
matching draws the next generated seed and runs the inner loop over
`range region_size`. -/
def region_compare_exchange (key : Nat) (seeds : Nat → Nat)
    (rand : Nat → Nat → Nat) (r : Run) (a_start b_start size : Nat) :
    Nat → Except String Run
  | 0 => .ok r
  | c + 1 =>
    let seed := seeds r.seedCtr
    let r1 := { r with seedCtr := r.seedCtr + 1 }
    match runMatching key rand a_start b_start size seed r1
        (List.range size) with
    | .error e => .error e
    | .ok r2 =>
      region_compare_exchange key seeds rand r2 a_start b_start size c

/-- The region pairs one iteration of `randomized_shellsort`'s `while` loop
passes to `region_compare_exchange`, in program order: shaker forward, shaker
backward, brick 3-hop (guarded by `num_regions >= 4`), brick 2-hop (guarded
by `num_regions >= 3`), even-adjacent, odd-adjacent.  Each triple is
`(region_a_start, region_b_start, region_size)`. -/
def shellsortPasses (offset numRegions : Nat) : List (Nat × Nat × Nat) :=
  (List.range (numRegions - 1)).map
    (fun i => (i * offset, (i + 1) * offset, offset))
  ++ ((List.range (numRegions - 1)).reverse.map
    (fun i => ((i + 1) * offset, i * offset, offset)))
  ++ (if 4 ≤ numRegions then
        (List.range (numRegions - 3)).map
          (fun i => (i * offset, (i + 3) * offset, offset))
      else [])
  ++ (if 3 ≤ numRegions then
        (List.range (numRegions - 2)).map
          (fun i => (i * offset, (i + 2) * offset, offset))
      else [])
  ++ (List.range' 0 (numRegions / 2) 2).map
    (fun i => (i * offset, (i + 1) * offset, offset))
  ++ (List.range' 1 ((numRegions - 1) / 2) 2).map
    (fun i => (i * offset, (i + 1) * offset, offset))

/-- The `while offset >= 1` loop of `randomized_shellsort`, unfolded into the
list of `region_compare_exchange` calls it makes: one block of passes per
`offset`, then `offset //= 2`. -/
def scheduleAux (n offset : Nat) : List (Nat × Nat × Nat) :=
  if offset = 0 then []
  else shellsortPasses offset (n / offset) ++ scheduleAux n (offset / 2)
termination_by offset
decreasing_by exact Nat.div_lt_self (Nat.pos_of_ne_zero (by assumption)) one_lt_two

/-- All region pairs of `randomized_shellsort` for array size `n`
(`offset` starts at `n // 2`). -/
def schedulePairs (n : Nat) : List (Nat × Nat × Nat) :=
  scheduleAux n (n / 2)

/-- Run the sort body over a list of region triples: each loop iteration of
`randomized_shellsort` is exactly one `region_compare_exchange` call with
`c = 4`, so the program is this fold over the pairs its loops enumerate. -/
def runSchedule (key : Nat) (seeds : Nat → Nat) (rand : Nat → Nat → Nat)
    (r : Run) : List (Nat × Nat × Nat) → Except String Run
  | [] => .ok r
  | (a, b, sz) :: rest =>
    match region_compare_exchange key seeds rand r a b sz 4 with
    | .error e => .error e
    | .ok r1 => runSchedule key seeds rand r1 rest

/-- `randomized_shellsort(client, n)` with `n` the server's array size. -/
def randomized_shellsort (key : Nat) (seeds : Nat → Nat)
    (rand : Nat → Nat → Nat) (r : Run) : Except String Run :=
  runSchedule key seeds rand r (schedulePairs r.server.n)

/-- The client state right after `initialize_server(cells)` on a fresh
server: counters, nonce and seed counters at zero, empty trace. -/
def initRun (cells : List FToken) : Run :=
  { server := (ShellSortServer.Initialize ShellSortServer.new cells).2,
    nonceCtr := 0, seedCtr := 0, trace := [] }

/-! ## Plaintext views and well-formedness -/

/-- The plaintext stored in a cell (total function; out-of-protocol cells
read as 0 — every cell handled by the theorems decrypts successfully). -/
def plainOf (key : Nat) (t : FToken) : Nat :=
  ((SecureEncryption.decrypt key t).toOption).getD 0

/-- The decrypted view of an encrypted array. -/
def plaintexts (key : Nat) (arr : List FToken) : List Nat :=
  arr.map (plainOf key)

/-- A cell produced by the client's encryption: authenticated under `key`
and carrying the 4-byte packing of a 32-bit value. -/
def wfTok (key : Nat) (t : FToken) : Prop :=
  t.key = key ∧ ∃ v, v < 4294967296 ∧ t.msg = packBytes v

/-- Every cell of the array is a client ciphertext. -/
def wfArr (key : Nat) (arr : List FToken) : Prop :=
  ∀ t ∈ arr, wfTok key t

/-- Client-side run well-formedness: array of client ciphertexts whose
length is the server's `n`. -/
def wfRun (key : Nat) (r : Run) : Prop :=
  wfArr key r.server.encrypted_array ∧
  r.server.encrypted_array.length = r.server.n

/-- Every cached permutation really is a permutation of `range size`
(true after a reset, preserved by every operation). -/
def cacheWF (s : ServerState) : Prop :=
  ∀ size seed perm, s.perm_cache.lookup (size, seed) = some perm →
    perm.Perm (List.range size)

/-- Number of `GetPair` operations in a trace. -/
def countGetPair (tr : List StoreOp) : Nat :=
  (tr.filter (fun op => match op with | .getPair _ _ => true | _ => false)).length

/-- Number of `WritePair` operations in a trace. -/
def countWritePair (tr : List StoreOp) : Nat :=
  (tr.filter (fun op => match op with | .writePair _ _ => true | _ => false)).length

/-! ## The schedule as the specification states it (section 4.1) -/

/-- The pass structure of one offset as stated in the specification, in
region indices: shaker forward over `i = 0 … num_regions-2` pairing
`(i, i+1)`; shaker backward over `i = num_regions-2 … 0` pairing `(i+1, i)`;
brick 3-hop, only when `num_regions ≥ 4`, over `i = 0 … num_regions-4`
pairing `(i, i+3)`; brick 2-hop, only when `num_regions ≥ 3`, over
`i = 0 … num_regions-3` pairing `(i, i+2)`; then the even-`i` and odd-`i`
adjacent passes over `i ≤ num_regions-2`. -/
def specRegionPasses (numRegions : Nat) : List (Nat × Nat) :=
  (List.range (numRegions - 1)).map (fun i => (i, i + 1))
  ++ ((List.range (numRegions - 1)).reverse.map (fun i => (i + 1, i)))
  ++ (if 4 ≤ numRegions then
        (List.range (numRegions - 3)).map (fun i => (i, i + 3))
      else [])
  ++ (if 3 ≤ numRegions then
        (List.range (numRegions - 2)).map (fun i => (i, i + 2))
      else [])
  ++ (List.range' 0 (numRegions / 2) 2).map (fun i => (i, i + 1))
  ++ (List.range' 1 ((numRegions - 1) / 2) 2).map (fun i => (i, i + 1))

/-- Region pairs for a given list of offsets, each region pair rendered as
its `(start_a, start_b, size)` triple (region `i` at offset `off` is the
contiguous range starting at `i * off` of length `off`). -/
def specSchedule (n : Nat) : List Nat → List (Nat × Nat × Nat)
  | [] => []
  | off :: rest =>
    (specRegionPasses (n / off)).map (fun p => (p.1 * off, p.2 * off, off))
    ++ specSchedule n rest

/-- The offsets the specification prescribes for `N = 2^k`: starting at
`N/2 = 2^(k-1)` and halving down to `1 = 2^0`. -/
def specOffsets (k : Nat) : List Nat :=
  (List.range k).reverse.map (fun j => 2 ^ j)

/-! ## `obfi/crypto.py`: the pipeline's CBC adapter (`SE_SEnc` / `SE_SDec`)

`SE_SEnc` pickles the object, pads (PKCS7, block size 16), AES-CBC-encrypts
under a random IV and returns `iv || ciphertext`; `SE_SDec` splits, CBC
decrypts, unpads and unpickles.  The AES block permutation under the session
key is abstracted as an explicit pair of byte-block maps `E` / `D`.
`pickle.dumps(v, HIGHEST_PROTOCOL)` on an `int` in `[0, 256)` — the shape the
`KeyWrapper` sorting adapter feeds it — is the five bytes
`0x80 0x05 0x4B v 0x2E`; `pickle.loads` reads one object and ignores
anything after the STOP byte `0x2E`. -/

/-- Bytewise XOR of two equal-length byte strings. -/
def xorB (a b : List Nat) : List Nat := a.zipWith Nat.xor b

/-- Split into 16-byte blocks (structural recursion on a fuel bound by the
length: every step consumes at least one byte of a non-empty list, so
`fuel = l.length` always suffices). -/
def chunks16Go : Nat → List Nat → List (List Nat)
  | _, [] => []
  | 0, _ :: _ => []
  | fuel + 1, x :: rest =>
    (x :: rest).take 16 :: chunks16Go fuel ((x :: rest).drop 16)

/-- Split into 16-byte blocks. -/
def chunks16 (l : List Nat) : List (List Nat) :=
  chunks16Go l.length l

/-- Concatenate blocks. -/
def concatB (ls : List (List Nat)) : List Nat :=
  ls.foldr (fun a b => a ++ b) []

/-- CBC encryption chain: `c_i = E (p_i xor c_(i-1))`, seeded by the IV. -/
def cbcEncBlocks (E : List Nat → List Nat) (prev : List Nat) :
    List (List Nat) → List (List Nat)
  | [] => []
  | b :: bs =>
    let c := E (xorB b prev)
    c :: cbcEncBlocks E c bs

/-- CBC decryption chain: `p_i = D c_i xor c_(i-1)`, seeded by the IV. -/
def cbcDecBlocks (D : List Nat → List Nat) (prev : List Nat) :
    List (List Nat) → List (List Nat)
  | [] => []
  | b :: bs => xorB (D b) prev :: cbcDecBlocks D b bs

/-- PKCS7 padding to 16-byte blocks (`Crypto.Util.Padding.pad`). -/
def pad16 (bs : List Nat) : List Nat :=
  bs ++ List.replicate (16 - bs.length % 16) (16 - bs.length % 16)

/-- PKCS7 unpadding (`Crypto.Util.Padding.unpad`): the last byte names the
padding length, which must be in `[1, 16]`, fit, and be repeated. -/
def unpad16 (bs : List Nat) : Option (List Nat) :=
  match bs.getLast? with
  | none => none
  | some p =>
    if 1 ≤ p ∧ p ≤ 16 ∧ p ≤ bs.length ∧
        (bs.drop (bs.length - p)).all (fun x => x = p) then
      some (bs.take (bs.length - p))
    else none

/-- `pickle.dumps(v, HIGHEST_PROTOCOL)` for an `int` in `[0, 256)`
(frame-less short form: PROTO 5, BININT1 v, STOP). -/
def pickleObj (v : Nat) : List Nat := [128, 5, 75, v % 256, 46]

/-- `pickle.loads` on such a stream: parses one object and stops at the STOP
byte, ignoring any trailing bytes. -/
def unpickleObj : List Nat → Option Nat
  | 128 :: 5 :: 75 :: v :: 46 :: _ => some v
  | _ => none

/-- `SE_SEnc(Ke, obj)` with IV made explicit:
`iv || CBC-encrypt(pad(pickle(obj)))`. -/
def SE_SEnc (E : List Nat → List Nat) (iv : List Nat) (obj : Nat) :
    List Nat :=
  iv ++ concatB (cbcEncBlocks E iv (chunks16 (pad16 (pickleObj obj))))

/-- `SE_SDec(Ke, data)`: split `iv || ct` (AES rejects a short IV or a
ciphertext that is not a multiple of the block size), CBC-decrypt, unpad,
unpickle.  Any failure is a raised exception, modelled as `none`. -/
def SE_SDec (D : List Nat → List Nat) (data : List Nat) : Option Nat :=
  let iv := data.take 16
  let ct := data.drop 16
  if 16 ≤ data.length ∧ ct.length % 16 = 0 then
    match unpad16 (concatB (cbcDecBlocks D iv (chunks16 ct))) with
    | some pt => unpickleObj pt
    | none => none
  else none

/-- A concrete AES stand-in for the counterexample: bytewise `+1 mod 256`
(a permutation of each byte, hence of every block). -/
def testE (b : List Nat) : List Nat := b.map (fun x => (x + 1) % 256)

/-- Inverse block map of `testE` on bytes. -/
def testD (b : List Nat) : List Nat := b.map (fun x => (x + 255) % 256)

/-- A forged plaintext block: a valid pickle of `4`, ten junk bytes `0x5A`,
and a valid PKCS7 pad byte `0x01` — not `pad16 (pickleObj v)` for any `v`. -/
def forgedBlock : List Nat :=
  [128, 5, 75, 4, 46, 90, 90, 90, 90, 90, 90, 90, 90, 90, 90, 1]

/-- The forged wire bytes: zero IV followed by the block that CBC-decrypts
to `forgedBlock`. -/
def forgedData : List Nat := List.replicate 16 0 ++ testE forgedBlock

/-- The two runs agree on the server's array length and `n`, both counters,
the permutation cache, the client counters and the whole operation trace;
both are well-formed.  Only the ciphertext cells may differ. -/
def Rrel (key : Nat) (q1 q2 : Run) : Prop :=
  q1.server.n = q2.server.n ∧
  q1.server.encrypted_array.length = q2.server.encrypted_array.length ∧
  q1.server.comparison_count = q2.server.comparison_count ∧
  q1.server.write_count = q2.server.write_count ∧
  q1.server.perm_cache = q2.server.perm_cache ∧
  q1.nonceCtr = q2.nonceCtr ∧ q1.seedCtr = q2.seedCtr ∧ q1.trace = q2.trace ∧
  wfRun key q1 ∧ wfRun key q2

/-! ## Concrete fixtures for instantiating the theorems -/

/-- A small well-formed encrypted array (plaintexts 5 and 3 under key 1). -/
def sampleCells : List FToken :=
  [fernetEncrypt 1 0 (packBytes 5), fernetEncrypt 1 1 (packBytes 3)]

/-- The server right after `Initialize(sampleCells)`. -/
def sampleServer : ServerState :=
  (ShellSortServer.Initialize ShellSortServer.new sampleCells).2

/-- The client run right after `initialize_server(sampleCells)`. -/
def sampleRun : Run := initRun sampleCells

/-- A server whose hash array is populated and finalized. -/
def sampleHashServer : ServerState :=
  { ShellSortServer.new with hash_array := sampleCells,
                             hash_finalized := true }

/-! ## Basic lemmas about packing and the encryption adapter -/

theorem unpack_packBytes {v : Nat} (h : v < 4294967296) :
    unpack32 (packBytes v) = some v := by
  simp only [packBytes, unpack32, Option.some.injEq]
  omega

theorem encrypt_ok (key nonce : Nat) {v : Nat} (h : v < 4294967296) :
    SecureEncryption.encrypt key nonce (v : Int) =
      .ok (fernetEncrypt key nonce (packBytes v)) := by
  have h0 : ¬((v : Int) < 0) := by omega
  have h1 : pack32 (v : Int) = some (packBytes v) := by
    show (if v < 4294967296 then some (packBytes v) else none) = _
    rw [if_pos h]
  simp [SecureEncryption.encrypt, h0, h1]

theorem decrypt_tok (key nonce : Nat) {v : Nat} (h : v < 4294967296) :
    SecureEncryption.decrypt key (fernetEncrypt key nonce (packBytes v)) =
      .ok v := by
  simp [SecureEncryption.decrypt, fernetEncrypt, fernetDecrypt,
    unpack_packBytes h]

theorem wfTok_decrypt {key : Nat} {t : FToken} (h : wfTok key t) :
    ∃ v, v < 4294967296 ∧ SecureEncryption.decrypt key t = .ok v := by
  obtain ⟨hk, v, hv, hmsg⟩ := h
  refine ⟨v, hv, ?_⟩
  obtain ⟨tk, tn, tm⟩ := t
  simp only [FToken.key] at hk
  simp only [FToken.msg] at hmsg
  subst hk
  subst hmsg
  exact decrypt_tok _ tn hv

theorem plainOf_of_decrypt {key v : Nat} {t : FToken}
    (h : SecureEncryption.decrypt key t = .ok v) : plainOf key t = v := by
  simp [plainOf, h, Except.toOption]

theorem wfTok_encrypt (key nonce : Nat) {v : Nat} (h : v < 4294967296) :
    wfTok key (fernetEncrypt key nonce (packBytes v)) :=
  ⟨rfl, v, h, rfl⟩

/-! ## Permutation lemmas for in-place swaps and the Fisher-Yates shuffle -/

theorem cons_set_perm {α : Type} :
    ∀ (t : List α) (m : Nat) (c : α) (hm : m < t.length),
      ((t[m]) :: t.set m c).Perm (c :: t)
  | x :: s, 0, c, _ => List.Perm.swap c x s
  | x :: s, m + 1, c, hm => by
    have hm1 : m < s.length := by simpa using hm
    simp only [List.getElem_cons_succ, List.set_cons_succ]
    exact ((List.Perm.swap x (s[m]) (s.set m c)).trans
      (List.Perm.cons x (cons_set_perm s m c hm1))).trans (List.Perm.swap c x s)

theorem set_swap_perm {α : Type} :
    ∀ (l : List α) (i j : Nat) (hi : i < l.length) (hj : j < l.length),
      ((l.set i (l[j])).set j (l[i])).Perm l := by
  intro l
  induction l with
  | nil => intro i j hi hj; simp at hi
  | cons x s ih =>
    intro i j hi hj
    match i, j with
    | 0, 0 => simp
    | 0, m + 1 =>
      have hm : m < s.length := by simpa using hj
      simpa using cons_set_perm s m x hm
    | k + 1, 0 =>
      have hk : k < s.length := by simpa using hi
      simpa using cons_set_perm s k x hk
    | k + 1, m + 1 =>
      have hk : k < s.length := by simpa using hi
      have hm : m < s.length := by simpa using hj
      simpa using List.Perm.cons x (ih k m hk hm)

theorem set_getElem_self_eq {α : Type} :
    ∀ (l : List α) (i : Nat) (hi : i < l.length), l.set i (l[i]) = l
  | _ :: _, 0, _ => rfl
  | x :: s, i + 1, hi => by
    have hi1 : i < s.length := by simpa using hi
    simpa using set_getElem_self_eq s i hi1

theorem swapL_perm (l : List Nat) (i j : Nat) (hi : i < l.length)
    (hj : j < l.length) : (swapL l i j).Perm l := by
  unfold swapL
  rw [List.getD_eq_getElem _ _ hj, List.getD_eq_getElem _ _ hi]
  exact set_swap_perm l i j hi hj

theorem foldl_swap_perm (randb : Nat → Nat) :
    ∀ (L : List Nat) (acc l : List Nat), acc.length = l.length → acc.Perm l →
      (∀ i ∈ L, i < l.length) →
      (L.foldl (fun a i => swapL a i (randb i % (i + 1))) acc).Perm l := by
  intro L
  induction L with
  | nil => intro acc l _ h _; simpa using h
  | cons i L ih =>
    intro acc l hlen hperm hmem
    simp only [List.foldl_cons]
    have hi : i < acc.length := by
      rw [hlen]; exact hmem i (by simp)
    have hj : randb i % (i + 1) < acc.length := by
      have := Nat.mod_lt (randb i) (show 0 < i + 1 by omega)
      omega
    refine ih _ l (by simp [swapL, hlen]) ((swapL_perm acc i _ hi hj).trans hperm)
      (fun x hx => hmem x (by simp [hx]))

theorem pyShuffle_perm (randb : Nat → Nat) (l : List Nat) :
    (pyShuffle randb l).Perm l := by
  unfold pyShuffle
  refine foldl_swap_perm randb _ l l rfl (List.Perm.refl l) ?_
  intro i hi
  simp only [List.mem_reverse, List.mem_range'_1] at hi
  omega

theorem permFor_perm (rand : Nat → Nat → Nat) (size seed : Nat) :
    (permFor rand size seed).Perm (List.range size) :=
  pyShuffle_perm (rand seed) (List.range size)

theorem permFor_length (rand : Nat → Nat → Nat) (size seed : Nat) :
    (permFor rand size seed).length = size := by
  simpa using (permFor_perm rand size seed).length_eq

theorem map_getD_self (l : List Nat) :
    (List.range l.length).map (fun i => l.getD i 0) = l := by
  apply List.ext_getElem (by simp)
  intro i h1 h2
  simp only [List.getElem_map, List.getElem_range]
  exact List.getD_eq_getElem _ _ h2

theorem permlike_getD_lt {perm : List Nat} {size : Nat}
    (hp : perm.Perm (List.range size)) {i : Nat} (hi : i < size) :
    perm.getD i 0 < size := by
  have hlen : perm.length = size := by simpa using hp.length_eq
  have hmem : perm.getD i 0 ∈ perm := by
    rw [List.getD_eq_getElem _ _ (show i < perm.length by omega)]
    exact List.getElem_mem _
  simpa using hp.mem_iff.mp hmem

/-! ## Characterisations of the store operations -/

theorem getPair_ok (s : ServerState) (ia ib : Nat) (hia : ia < s.n)
    (hib : ib < s.n) :
    ShellSortServer.GetPair s ia ib =
      (.ok (s.encrypted_array.getD ia dTok, s.encrypted_array.getD ib dTok),
       { s with comparison_count := s.comparison_count + 1 }) := by
  unfold ShellSortServer.GetPair
  rw [if_pos ⟨Int.natCast_nonneg ia, by exact_mod_cast hia,
    Int.natCast_nonneg ib, by exact_mod_cast hib⟩]
  simp

theorem getPair_fail (s : ServerState) (i j : Int)
    (h : ¬(0 ≤ i ∧ i < (s.n : Int) ∧ 0 ≤ j ∧ j < (s.n : Int))) :
    ShellSortServer.GetPair s i j =
      (.error .outOfRange,
       { s with comparison_count := s.comparison_count + 1 }) := by
  unfold ShellSortServer.GetPair
  rw [if_neg h]

theorem writePair_ok (s : ServerState) (ia ib : Nat) (na nb : FToken)
    (hia : ia < s.n) (hib : ib < s.n) :
    ShellSortServer.WritePair s ia ib na nb =
      (.ok (),
       { s with
          encrypted_array := (s.encrypted_array.set ia na).set ib nb,
          write_count := s.write_count + 1 }) := by
  unfold ShellSortServer.WritePair
  rw [if_pos ⟨Int.natCast_nonneg ia, by exact_mod_cast hia,
    Int.natCast_nonneg ib, by exact_mod_cast hib⟩]
  simp

theorem getMate_hit (rand : Nat → Nat → Nat) (s : ServerState)
    {size seed i : Nat} {perm : List Nat} (hi : i < size)
    (h : s.perm_cache.lookup (size, seed) = some perm) :
    ShellSortServer.GetMate rand s size seed i = (.ok (perm.getD i 0), s) := by
  unfold ShellSortServer.GetMate
  rw [if_pos hi, h]

theorem getMate_miss (rand : Nat → Nat → Nat) (s : ServerState)
    {size seed i : Nat} (hi : i < size)
    (h : s.perm_cache.lookup (size, seed) = none) :
    ShellSortServer.GetMate rand s size seed i =
      (.ok ((permFor rand size seed).getD i 0),
       { s with perm_cache :=
          ((size, seed), permFor rand size seed) :: s.perm_cache }) := by
  unfold ShellSortServer.GetMate
  rw [if_pos hi, h]

theorem getMate_oob (rand : Nat → Nat → Nat) (s : ServerState)
    (size seed i : Nat) (hi : ¬i < size) :
    ShellSortServer.GetMate rand s size seed i = (.error .outOfRange, s) := by
  unfold ShellSortServer.GetMate
  rw [if_neg hi]

theorem getMate_fields (rand : Nat → Nat → Nat) (s : ServerState)
    (size seed i : Nat) :
    (ShellSortServer.GetMate rand s size seed i).2 =
      { s with perm_cache :=
          (ShellSortServer.GetMate rand s size seed i).2.perm_cache } := by
  unfold ShellSortServer.GetMate
  split
  · split <;> rfl
  · rfl

/-! ## Characterisation of the client compare-exchange -/

theorem decryptOrder_ok (key ia ib : Nat) {ca cb : FToken} {va vb : Nat}
    (hdeca : SecureEncryption.decrypt key ca = .ok va)
    (hdecb : SecureEncryption.decrypt key cb = .ok vb) :
    decryptOrder key ia ib ca cb = .ok (orderedPair ia ib va vb) := by
  unfold decryptOrder
  rw [hdeca, hdecb]

theorem encryptPair_ok (key nonce : Nat) {x y : Nat} (hx : x < 4294967296)
    (hy : y < 4294967296) :
    encryptPair key nonce (x, y) =
      .ok (fernetEncrypt key nonce (packBytes x),
           fernetEncrypt key (nonce + 1) (packBytes y)) := by
  unfold encryptPair
  simp only []
  rw [encrypt_ok key nonce hx, encrypt_ok key (nonce + 1) hy]

theorem orderedPair_lt {ia ib : Nat} (h : ia < ib) (a b : Nat) :
    orderedPair ia ib a b = (min a b, max a b) := by
  unfold orderedPair
  rw [if_pos h]
  by_cases hv : a ≤ b
  · rw [if_pos hv, Nat.min_eq_left hv, Nat.max_eq_right hv]
  · rw [if_neg hv, Nat.min_eq_right (by omega), Nat.max_eq_left (by omega)]

theorem orderedPair_ge {ia ib : Nat} (h : ¬ia < ib) (a b : Nat) :
    orderedPair ia ib a b = (max a b, min a b) := by
  unfold orderedPair
  rw [if_neg h]
  by_cases hv : a ≥ b
  · rw [if_pos hv, Nat.min_eq_right (by omega), Nat.max_eq_left (by omega)]
  · rw [if_neg hv, Nat.min_eq_left (by omega), Nat.max_eq_right (by omega)]

theorem capw_ok (key nonce : Nat) (s : ServerState) {ia ib va vb : Nat}
    (hia : ia < s.n) (hib : ib < s.n)
    (hdeca : SecureEncryption.decrypt key (s.encrypted_array.getD ia dTok) =
      .ok va)
    (hdecb : SecureEncryption.decrypt key (s.encrypted_array.getD ib dTok) =
      .ok vb)
    (hva : va < 4294967296) (hvb : vb < 4294967296) :
    ShellSortClient.compare_and_prepare_writes key nonce s ia ib =
      .ok ((fernetEncrypt key nonce
              (packBytes (if ia < ib then min va vb else max va vb)),
            fernetEncrypt key (nonce + 1)
              (packBytes (if ia < ib then max va vb else min va vb))),
           { s with comparison_count := s.comparison_count + 1 }) := by
  have hmin : min va vb < 4294967296 := by omega
  have hmax : max va vb < 4294967296 := by omega
  unfold ShellSortClient.compare_and_prepare_writes
  rw [getPair_ok s ia ib hia hib]
  simp only []
  rw [decryptOrder_ok key ia ib hdeca hdecb]
  by_cases hab : ia < ib
  · rw [orderedPair_lt hab]
    simp only []
    rw [encryptPair_ok key nonce hmin hmax, if_pos hab, if_pos hab]
  · rw [orderedPair_ge hab]
    simp only []
    rw [encryptPair_ok key nonce hmax hmin, if_neg hab, if_neg hab]

theorem capw_oob (key nonce : Nat) (s : ServerState) {ia ib : Nat}
    (h : ¬(ia < s.n ∧ ib < s.n)) :
    ShellSortClient.compare_and_prepare_writes key nonce s ia ib =
      .error "OutOfRange" := by
  have hfail : ¬(0 ≤ (ia : Int) ∧ (ia : Int) < (s.n : Int) ∧
      0 ≤ (ib : Int) ∧ (ib : Int) < (s.n : Int)) := by
    intro hc
    exact h ⟨by exact_mod_cast hc.2.1, by exact_mod_cast hc.2.2.2⟩
  unfold ShellSortClient.compare_and_prepare_writes
  rw [getPair_fail s _ _ hfail]

theorem compare_exchange_ok (key : Nat) (r : Run) {ia ib : Nat}
    (hwf : wfRun key r) (hia : ia < r.server.n) (hib : ib < r.server.n) :
    ∃ arr2, compare_exchange key r ia ib = .ok
      { server := { r.server with
                      encrypted_array := arr2
                      comparison_count := r.server.comparison_count + 1
                      write_count := r.server.write_count + 1 },
        nonceCtr := r.nonceCtr + 2, seedCtr := r.seedCtr,
        trace := r.trace ++ [.getPair ia ib, .writePair ia ib] } ∧
      arr2.length = r.server.encrypted_array.length ∧ wfArr key arr2 ∧
      (plaintexts key arr2).Perm (plaintexts key r.server.encrypted_array) := by
  obtain ⟨hwfa, hlen⟩ := hwf
  have hlia : ia < r.server.encrypted_array.length := by omega
  have hlib : ib < r.server.encrypted_array.length := by omega
  have hta : wfTok key (r.server.encrypted_array.getD ia dTok) := by
    rw [List.getD_eq_getElem _ _ hlia]
    exact hwfa _ (List.getElem_mem hlia)
  have htb : wfTok key (r.server.encrypted_array.getD ib dTok) := by
    rw [List.getD_eq_getElem _ _ hlib]
    exact hwfa _ (List.getElem_mem hlib)
  obtain ⟨va, hva, hdeca⟩ := wfTok_decrypt hta
  obtain ⟨vb, hvb, hdecb⟩ := wfTok_decrypt htb
  set x := if ia < ib then min va vb else max va vb with hxdef
  set y := if ia < ib then max va vb else min va vb with hydef
  have hx32 : x < 4294967296 := by rw [hxdef]; split <;> omega
  have hy32 : y < 4294967296 := by rw [hydef]; split <;> omega
  refine ⟨(r.server.encrypted_array.set ia
      (fernetEncrypt key r.nonceCtr (packBytes x))).set ib
      (fernetEncrypt key (r.nonceCtr + 1) (packBytes y)), ?_, ?_, ?_, ?_⟩
  · unfold compare_exchange
    rw [capw_ok key r.nonceCtr r.server hia hib hdeca hdecb hva hvb]
    simp only []
    rw [writePair_ok
      { r.server with comparison_count := r.server.comparison_count + 1 }
      ia ib _ _ hia hib]
  · simp
  · intro t ht
    rcases List.mem_or_eq_of_mem_set ht with ht1 | ht1
    · rcases List.mem_or_eq_of_mem_set ht1 with ht2 | ht2
      · exact hwfa t ht2
      · subst ht2; exact wfTok_encrypt key r.nonceCtr hx32
    · subst ht1; exact wfTok_encrypt key (r.nonceCtr + 1) hy32
  · have hdeca2 : SecureEncryption.decrypt key
        (r.server.encrypted_array[ia]) = .ok va := by
      rwa [List.getD_eq_getElem _ _ hlia] at hdeca
    have hdecb2 : SecureEncryption.decrypt key
        (r.server.encrypted_array[ib]) = .ok vb := by
      rwa [List.getD_eq_getElem _ _ hlib] at hdecb
    have hPlia : ia < (plaintexts key r.server.encrypted_array).length := by
      simpa [plaintexts] using hlia
    have hPlib : ib < (plaintexts key r.server.encrypted_array).length := by
      simpa [plaintexts] using hlib
    have hPia : (plaintexts key r.server.encrypted_array)[ia] = va := by
      simp only [plaintexts, List.getElem_map]
      exact plainOf_of_decrypt hdeca2
    have hPib : (plaintexts key r.server.encrypted_array)[ib] = vb := by
      simp only [plaintexts, List.getElem_map]
      exact plainOf_of_decrypt hdecb2
    have hpe1 : plainOf key (fernetEncrypt key r.nonceCtr (packBytes x)) = x :=
      plainOf_of_decrypt (decrypt_tok key r.nonceCtr hx32)
    have hpe2 : plainOf key
        (fernetEncrypt key (r.nonceCtr + 1) (packBytes y)) = y :=
      plainOf_of_decrypt (decrypt_tok key (r.nonceCtr + 1) hy32)
    simp only [plaintexts, List.map_set, hpe1, hpe2]
    by_cases heq : ia = ib
    · subst heq
      have hvv : va = vb := by
        rw [hdeca2] at hdecb2
        exact Except.ok.inj hdecb2
      have hy2 : y = va := by rw [hydef]; simp [hvv]
      rw [List.set_set, hy2]
      have := set_getElem_self_eq (plaintexts key r.server.encrypted_array)
        ia hPlia
      rw [hPia] at this
      rw [show (List.map (plainOf key) r.server.encrypted_array) =
        plaintexts key r.server.encrypted_array from rfl, this]
    · have hxcase : (x = va ∧ y = vb) ∨ (x = vb ∧ y = va) := by
        rw [hxdef, hydef]
        by_cases hab : ia < ib
        · simp only [if_pos hab]; omega
        · simp only [if_neg hab]; omega
      rw [show (List.map (plainOf key) r.server.encrypted_array) =
        plaintexts key r.server.encrypted_array from rfl]
      rcases hxcase with ⟨hx, hy⟩ | ⟨hx, hy⟩
      · rw [hx, hy, ← hPia, ← hPib,
          set_getElem_self_eq _ ia hPlia,
          set_getElem_self_eq _ ib hPlib]
      · rw [hx, hy, ← hPia, ← hPib]
        exact set_swap_perm _ ia ib hPlia hPlib

theorem compare_exchange_oob (key : Nat) (r : Run) {ia ib : Nat}
    (h : ¬(ia < r.server.n ∧ ib < r.server.n)) :
    compare_exchange key r ia ib = .error "OutOfRange" := by
  unfold compare_exchange
  rw [capw_oob key r.nonceCtr r.server h]

theorem getMate_step (rand : Nat → Nat → Nat) (s : ServerState)
    (size seed i : Nat) (hi : i < size) (hcwf : cacheWF s) :
    ∃ v s2, ShellSortServer.GetMate rand s size seed i = (.ok v, s2) ∧
      v < size ∧ cacheWF s2 ∧
      s2 = { s with perm_cache := s2.perm_cache } := by
  cases hcache : s.perm_cache.lookup (size, seed) with
  | some perm =>
    exact ⟨perm.getD i 0, s, getMate_hit rand s hi hcache,
      permlike_getD_lt (hcwf _ _ _ hcache) hi, hcwf, rfl⟩
  | none =>
    refine ⟨(permFor rand size seed).getD i 0, _, getMate_miss rand s hi hcache,
      permlike_getD_lt (permFor_perm rand size seed) hi, ?_, rfl⟩
    intro size2 seed2 perm2 hl
    rw [List.lookup_cons] at hl
    split at hl
    · rename_i hbeq
      have hkey : (size2, seed2) = (size, seed) := eq_of_beq hbeq
      cases hl
      cases hkey
      exact permFor_perm _ _ _
    · exact hcwf _ _ _ hl

theorem countGetPair_append (t1 t2 : List StoreOp) :
    countGetPair (t1 ++ t2) = countGetPair t1 + countGetPair t2 := by
  simp [countGetPair, List.filter_append]

theorem countWritePair_append (t1 t2 : List StoreOp) :
    countWritePair (t1 ++ t2) = countWritePair t1 + countWritePair t2 := by
  simp [countWritePair, List.filter_append]

theorem countGetPair_mate (size seed i : Nat) :
    countGetPair [StoreOp.getMate size seed i] = 0 := rfl

theorem countWritePair_mate (size seed i : Nat) :
    countWritePair [StoreOp.getMate size seed i] = 0 := rfl

theorem countGetPair_pairops (a b : Nat) :
    countGetPair [StoreOp.getPair a b, StoreOp.writePair a b] = 1 := rfl

theorem countWritePair_pairops (a b : Nat) :
    countWritePair [StoreOp.getPair a b, StoreOp.writePair a b] = 1 := rfl

theorem runMatching_ok (key : Nat) (rand : Nat → Nat → Nat)
    (a_start b_start size seed : Nat) {n0 : Nat}
    (hba : a_start + size ≤ n0) (hbb : b_start + size ≤ n0) :
    ∀ (is : List Nat) (r : Run), (∀ i ∈ is, i < size) →
      wfRun key r → cacheWF r.server → r.server.n = n0 →
      countGetPair r.trace = countWritePair r.trace →
      ∃ r2, runMatching key rand a_start b_start size seed r is = .ok r2 ∧
        wfRun key r2 ∧ cacheWF r2.server ∧ r2.server.n = n0 ∧
        countGetPair r2.trace = countWritePair r2.trace ∧
        (plaintexts key r2.server.encrypted_array).Perm
          (plaintexts key r.server.encrypted_array) := by
  intro is
  induction is with
  | nil =>
    intro r _ hwf hcwf hn hcnt
    exact ⟨r, rfl, hwf, hcwf, hn, hcnt, List.Perm.refl _⟩
  | cons i rest ih =>
    intro r hmem hwf hcwf hn hcnt
    have hilt : i < size := hmem i (by simp)
    obtain ⟨v, s2, hgm, hv, hcwf2, hs2⟩ :=
      getMate_step rand r.server size seed i hilt hcwf
    have hs2arr : s2.encrypted_array = r.server.encrypted_array := by rw [hs2]
    have hs2n : s2.n = r.server.n := by rw [hs2]
    set r1 : Run := { r with
                      server := s2
                      trace := r.trace ++ [.getMate size seed i] } with hr1def
    have hwf1 : wfRun key r1 := by
      constructor
      · show wfArr key s2.encrypted_array
        rw [hs2arr]; exact hwf.1
      · show s2.encrypted_array.length = s2.n
        rw [hs2arr, hs2n]; exact hwf.2
    have hia1 : a_start + i < r1.server.n := by
      show a_start + i < s2.n
      omega
    have hib1 : b_start + v < r1.server.n := by
      show b_start + v < s2.n
      omega
    obtain ⟨arr2, hce, hlen2, hwfa2, hperm2⟩ :=
      compare_exchange_ok key r1 hwf1 hia1 hib1
    obtain ⟨r2, hrun2, hwf2x, hcwf2x, hn2, hcnt2, hperm2x⟩ :=
      ih { server := { r1.server with
             encrypted_array := arr2
             comparison_count := r1.server.comparison_count + 1
             write_count := r1.server.write_count + 1 },
           nonceCtr := r1.nonceCtr + 2, seedCtr := r1.seedCtr,
           trace := r1.trace ++ [.getPair (a_start + i) (b_start + v),
                                 .writePair (a_start + i) (b_start + v)] }
        (fun j hj => hmem j (by simp [hj]))
        ⟨hwfa2, by
          show arr2.length = s2.n
          rw [hlen2]
          show s2.encrypted_array.length = s2.n
          rw [hs2arr, hs2n]; exact hwf.2⟩
        hcwf2
        (by show s2.n = n0; omega)
        (by
          show countGetPair ((r.trace ++ [StoreOp.getMate size seed i]) ++
              [StoreOp.getPair (a_start + i) (b_start + v),
               StoreOp.writePair (a_start + i) (b_start + v)]) =
            countWritePair ((r.trace ++ [StoreOp.getMate size seed i]) ++
              [StoreOp.getPair (a_start + i) (b_start + v),
               StoreOp.writePair (a_start + i) (b_start + v)])
          rw [countGetPair_append, countWritePair_append, countGetPair_append,
            countWritePair_append, countGetPair_mate, countWritePair_mate,
            countGetPair_pairops, countWritePair_pairops]
          omega)
    refine ⟨r2, ?_, hwf2x, hcwf2x, hn2, hcnt2, ?_⟩
    · show runMatching key rand a_start b_start size seed r (i :: rest) = .ok r2
      simp only [runMatching, hgm]
      rw [← hr1def, hce]
      exact hrun2
    · have harr1 : r1.server.encrypted_array = r.server.encrypted_array := by
        rw [hr1def]; exact hs2arr
      refine hperm2x.trans ?_
      rw [← harr1]
      exact hperm2

theorem region_ce_ok (key : Nat) (seeds : Nat → Nat) (rand : Nat → Nat → Nat)
    (a_start b_start size : Nat) {n0 : Nat}
    (hba : a_start + size ≤ n0) (hbb : b_start + size ≤ n0) :
    ∀ (c : Nat) (r : Run), wfRun key r → cacheWF r.server → r.server.n = n0 →
      countGetPair r.trace = countWritePair r.trace →
      ∃ r2, region_compare_exchange key seeds rand r a_start b_start size c =
          .ok r2 ∧
        wfRun key r2 ∧ cacheWF r2.server ∧ r2.server.n = n0 ∧
        countGetPair r2.trace = countWritePair r2.trace ∧
        (plaintexts key r2.server.encrypted_array).Perm
          (plaintexts key r.server.encrypted_array) := by
  intro c
  induction c with
  | zero =>
    intro r hwf hcwf hn hcnt
    exact ⟨r, rfl, hwf, hcwf, hn, hcnt, List.Perm.refl _⟩
  | succ c ih =>
    intro r hwf hcwf hn hcnt
    have hwf1 : wfRun key { r with seedCtr := r.seedCtr + 1 } := hwf
    obtain ⟨r2, hrun, hwf2, hcwf2, hn2, hcnt2, hperm2⟩ :=
      runMatching_ok key rand a_start b_start size (seeds r.seedCtr) hba hbb
        (List.range size) { r with seedCtr := r.seedCtr + 1 }
        (fun j hj => List.mem_range.mp hj) hwf1 hcwf hn hcnt
    obtain ⟨r3, hrun3, hwf3, hcwf3, hn3, hcnt3, hperm3⟩ :=
      ih r2 hwf2 hcwf2 hn2 hcnt2
    refine ⟨r3, ?_, hwf3, hcwf3, hn3, hcnt3, hperm3.trans hperm2⟩
    show region_compare_exchange key seeds rand r a_start b_start size
      (c + 1) = .ok r3
    simp only [region_compare_exchange]
    rw [hrun]
    exact hrun3

theorem runSchedule_ok (key : Nat) (seeds : Nat → Nat)
    (rand : Nat → Nat → Nat) {n0 : Nat} :
    ∀ (ps : List (Nat × Nat × Nat)) (r : Run),
      (∀ p ∈ ps, p.1 + p.2.2 ≤ n0 ∧ p.2.1 + p.2.2 ≤ n0) →
      wfRun key r → cacheWF r.server → r.server.n = n0 →
      countGetPair r.trace = countWritePair r.trace →
      ∃ r2, runSchedule key seeds rand r ps = .ok r2 ∧ wfRun key r2 ∧
        cacheWF r2.server ∧ r2.server.n = n0 ∧
        countGetPair r2.trace = countWritePair r2.trace ∧
        (plaintexts key r2.server.encrypted_array).Perm
          (plaintexts key r.server.encrypted_array) := by
  intro ps
  induction ps with
  | nil =>
    intro r _ hwf hcwf hn hcnt
    exact ⟨r, rfl, hwf, hcwf, hn, hcnt, List.Perm.refl _⟩
  | cons p rest ih =>
    obtain ⟨a, b, sz⟩ := p
    intro r hbnd hwf hcwf hn hcnt
    have hb1 := hbnd (a, b, sz) (by simp)
    obtain ⟨r2, hrun, hwf2, hcwf2, hn2, hcnt2, hperm2⟩ :=
      region_ce_ok key seeds rand a b sz hb1.1 hb1.2 4 r hwf hcwf hn hcnt
    obtain ⟨r3, hrun3, hwf3, hcwf3, hn3, hcnt3, hperm3⟩ :=
      ih r2 (fun q hq => hbnd q (by simp [hq])) hwf2 hcwf2 hn2 hcnt2
    refine ⟨r3, ?_, hwf3, hcwf3, hn3, hcnt3, hperm3.trans hperm2⟩
    show runSchedule key seeds rand r ((a, b, sz) :: rest) = .ok r3
    simp only [runSchedule]
    rw [hrun]
    exact hrun3

/-! ## Preservation of well-formedness and the plaintext multiset
(conditioned on success, for arbitrary inputs) -/

theorem compare_exchange_pres (key : Nat) (r : Run) (ia ib : Nat) (r2 : Run)
    (hwf : wfRun key r) (h : compare_exchange key r ia ib = .ok r2) :
    wfRun key r2 ∧
      (plaintexts key r2.server.encrypted_array).Perm
        (plaintexts key r.server.encrypted_array) := by
  by_cases hbnd : ia < r.server.n ∧ ib < r.server.n
  · obtain ⟨arr2, hce, hlen2, hwfa2, hperm⟩ :=
      compare_exchange_ok key r hwf hbnd.1 hbnd.2
    rw [hce] at h
    have h2 := Except.ok.inj h
    subst h2
    exact ⟨⟨hwfa2, hlen2.trans hwf.2⟩, hperm⟩
  · rw [compare_exchange_oob key r hbnd] at h
    exact absurd h (by simp)

theorem runMatching_pres (key : Nat) (rand : Nat → Nat → Nat)
    (a_start b_start size seed : Nat) :
    ∀ (is : List Nat) (r r2 : Run), wfRun key r →
      runMatching key rand a_start b_start size seed r is = .ok r2 →
      wfRun key r2 ∧
        (plaintexts key r2.server.encrypted_array).Perm
          (plaintexts key r.server.encrypted_array) := by
  intro is
  induction is with
  | nil =>
    intro r r2 hwf h
    simp only [runMatching] at h
    have h2 := Except.ok.inj h
    subst h2
    exact ⟨hwf, List.Perm.refl _⟩
  | cons i rest ih =>
    intro r r2 hwf h
    rcases hgm : ShellSortServer.GetMate rand r.server size seed i with
      ⟨res, s2⟩
    have hs2 : s2 = { r.server with perm_cache := s2.perm_cache } := by
      have := getMate_fields rand r.server size seed i
      rw [hgm] at this
      exact this
    have hs2arr : s2.encrypted_array = r.server.encrypted_array := by rw [hs2]
    have hs2n : s2.n = r.server.n := by rw [hs2]
    simp only [runMatching, hgm] at h
    cases res with
    | error e => exact absurd h (by simp)
    | ok v =>
      simp only [] at h
      rcases hce : compare_exchange key
          { r with server := s2, trace := r.trace ++ [.getMate size seed i] }
          (a_start + i) (b_start + v) with e | r1
      · rw [hce] at h
        exact absurd h (by simp)
      · rw [hce] at h
        have hwfmid : wfRun key
            { r with server := s2,
                     trace := r.trace ++ [.getMate size seed i] } := by
          constructor
          · show wfArr key s2.encrypted_array
            rw [hs2arr]; exact hwf.1
          · show s2.encrypted_array.length = s2.n
            rw [hs2arr, hs2n]; exact hwf.2
        obtain ⟨hwf1, hperm1⟩ := compare_exchange_pres key _ _ _ _ hwfmid hce
        obtain ⟨hwf2, hperm2⟩ := ih r1 r2 hwf1 h
        refine ⟨hwf2, hperm2.trans (hperm1.trans ?_)⟩
        show (plaintexts key s2.encrypted_array).Perm _
        rw [hs2arr]

theorem region_ce_pres (key : Nat) (seeds : Nat → Nat)
    (rand : Nat → Nat → Nat) (a_start b_start size : Nat) :
    ∀ (c : Nat) (r r2 : Run), wfRun key r →
      region_compare_exchange key seeds rand r a_start b_start size c =
        .ok r2 →
      wfRun key r2 ∧
        (plaintexts key r2.server.encrypted_array).Perm
          (plaintexts key r.server.encrypted_array) := by
  intro c
  induction c with
  | zero =>
    intro r r2 hwf h
    simp only [region_compare_exchange] at h
    have h2 := Except.ok.inj h
    subst h2
    exact ⟨hwf, List.Perm.refl _⟩
  | succ c ih =>
    intro r r2 hwf h
    simp only [region_compare_exchange] at h
    rcases hrm : runMatching key rand a_start b_start size (seeds r.seedCtr)
        { r with seedCtr := r.seedCtr + 1 } (List.range size) with e | r1
    · rw [hrm] at h
      exact absurd h (by simp)
    · rw [hrm] at h
      have hwfmid : wfRun key { r with seedCtr := r.seedCtr + 1 } := hwf
      obtain ⟨hwf1, hperm1⟩ :=
        runMatching_pres key rand a_start b_start size (seeds r.seedCtr)
          (List.range size) _ r1 hwfmid hrm
      obtain ⟨hwf2, hperm2⟩ := ih r1 r2 hwf1 h
      exact ⟨hwf2, hperm2.trans hperm1⟩

theorem runSchedule_pres (key : Nat) (seeds : Nat → Nat)
    (rand : Nat → Nat → Nat) :
    ∀ (ps : List (Nat × Nat × Nat)) (r r2 : Run), wfRun key r →
      runSchedule key seeds rand r ps = .ok r2 →
      wfRun key r2 ∧
        (plaintexts key r2.server.encrypted_array).Perm
          (plaintexts key r.server.encrypted_array) := by
  intro ps
  induction ps with
  | nil =>
    intro r r2 hwf h
    simp only [runSchedule] at h
    have h2 := Except.ok.inj h
    subst h2
    exact ⟨hwf, List.Perm.refl _⟩
  | cons p rest ih =>
    obtain ⟨a, b, sz⟩ := p
    intro r r2 hwf h
    simp only [runSchedule] at h
    rcases hrc : region_compare_exchange key seeds rand r a b sz 4 with e | r1
    · rw [hrc] at h
      exact absurd h (by simp)
    · rw [hrc] at h
      obtain ⟨hwf1, hperm1⟩ :=
        region_ce_pres key seeds rand a b sz 4 r r1 hwf hrc
      obtain ⟨hwf2, hperm2⟩ := ih r1 r2 hwf1 h
      exact ⟨hwf2, hperm2.trans hperm1⟩

/-! ## Relational machinery for obliviousness: two client runs over same-length
well-formed arrays stay in lock-step on everything except cell contents -/

theorem rel_compare_exchange (key : Nat) {q1 q2 q1' : Run} {ia ib : Nat}
    (hrel : Rrel key q1 q2) (h1 : compare_exchange key q1 ia ib = .ok q1') :
    ∃ q2', compare_exchange key q2 ia ib = .ok q2' ∧ Rrel key q1' q2' := by
  obtain ⟨hn, hlen, hcc, hwc, hpc, hnc, hsc, htr, hwf1, hwf2⟩ := hrel
  by_cases hbnd : ia < q1.server.n ∧ ib < q1.server.n
  · obtain ⟨arr1, hce1, hlen1, hwfa1, hperm1⟩ :=
      compare_exchange_ok key q1 hwf1 hbnd.1 hbnd.2
    obtain ⟨arr2, hce2, hlen2, hwfa2, hperm2⟩ :=
      compare_exchange_ok key q2 hwf2 (hn ▸ hbnd.1) (hn ▸ hbnd.2)
    rw [hce1] at h1
    have hq := Except.ok.inj h1
    subst hq
    refine ⟨_, hce2, ?_, ?_, ?_, ?_, ?_, ?_, ?_, ?_, ?_, ?_⟩
    · show q1.server.n = q2.server.n
      exact hn
    · show arr1.length = arr2.length
      rw [hlen1, hlen2]; exact hlen
    · show q1.server.comparison_count + 1 = q2.server.comparison_count + 1
      omega
    · show q1.server.write_count + 1 = q2.server.write_count + 1
      omega
    · show q1.server.perm_cache = q2.server.perm_cache
      exact hpc
    · show q1.nonceCtr + 2 = q2.nonceCtr + 2
      omega
    · exact hsc
    · show q1.trace ++ _ = q2.trace ++ _
      rw [htr]
    · exact ⟨hwfa1, hlen1.trans hwf1.2⟩
    · exact ⟨hwfa2, hlen2.trans hwf2.2⟩
  · rw [compare_exchange_oob key q1 hbnd] at h1
    exact absurd h1 (by simp)

theorem Rrel_mid (key : Nat) {q1 q2 : Run} (hrel : Rrel key q1 q2)
    (s21 s22 : ServerState) (op : StoreOp)
    (h21 : s21 = { q1.server with perm_cache := s21.perm_cache })
    (h22 : s22 = { q2.server with perm_cache := s22.perm_cache })
    (hpc2 : s21.perm_cache = s22.perm_cache) :
    Rrel key { q1 with server := s21, trace := q1.trace ++ [op] }
             { q2 with server := s22, trace := q2.trace ++ [op] } := by
  obtain ⟨hn, hlen, hcc, hwc, hpc, hnc, hsc, htr, hwf1, hwf2⟩ := hrel
  refine ⟨?_, ?_, ?_, ?_, ?_, ?_, ?_, ?_, ?_, ?_⟩
  · show s21.n = s22.n
    rw [h21, h22]; exact hn
  · show s21.encrypted_array.length = s22.encrypted_array.length
    rw [h21, h22]; exact hlen
  · show s21.comparison_count = s22.comparison_count
    rw [h21, h22]; exact hcc
  · show s21.write_count = s22.write_count
    rw [h21, h22]; exact hwc
  · exact hpc2
  · exact hnc
  · exact hsc
  · show q1.trace ++ _ = q2.trace ++ _
    rw [htr]
  · constructor
    · show wfArr key s21.encrypted_array
      rw [h21]; exact hwf1.1
    · show s21.encrypted_array.length = s21.n
      rw [h21]; exact hwf1.2
  · constructor
    · show wfArr key s22.encrypted_array
      rw [h22]; exact hwf2.1
    · show s22.encrypted_array.length = s22.n
      rw [h22]; exact hwf2.2

theorem rel_runMatching (key : Nat) (rand : Nat → Nat → Nat)
    (a_start b_start size seed : Nat) :
    ∀ (is : List Nat) (q1 q2 q1' : Run), Rrel key q1 q2 →
      runMatching key rand a_start b_start size seed q1 is = .ok q1' →
      ∃ q2', runMatching key rand a_start b_start size seed q2 is = .ok q2' ∧
        Rrel key q1' q2' := by
  intro is
  induction is with
  | nil =>
    intro q1 q2 q1' hrel h1
    simp only [runMatching] at h1 ⊢
    exact ⟨q2, rfl, (Except.ok.inj h1) ▸ hrel⟩
  | cons i rest ih =>
    intro q1 q2 q1' hrel h1
    have hpc : q1.server.perm_cache = q2.server.perm_cache :=
      hrel.2.2.2.2.1
    by_cases hi : i < size
    · cases hcache : q1.server.perm_cache.lookup (size, seed) with
      | some perm =>
        have hgm1 := getMate_hit rand q1.server hi hcache
        have hcache2 : q2.server.perm_cache.lookup (size, seed) = some perm :=
          by rw [← hpc]; exact hcache
        have hgm2 := getMate_hit rand q2.server hi hcache2
        simp only [runMatching, hgm1] at h1
        simp only [runMatching, hgm2]
        have hrelmid := Rrel_mid key hrel q1.server q2.server
          (.getMate size seed i) rfl rfl hpc
        rcases hce1 : compare_exchange key
            { q1 with server := q1.server,
                      trace := q1.trace ++ [.getMate size seed i] }
            (a_start + i) (b_start + perm.getD i 0) with e | mid1
        · rw [hce1] at h1
          exact absurd h1 (by simp)
        · rw [hce1] at h1
          obtain ⟨mid2, hce2, hrelmid2⟩ :=
            rel_compare_exchange key hrelmid hce1
          rw [hce2]
          exact ih _ _ _ hrelmid2 h1
      | none =>
        have hgm1 := getMate_miss rand q1.server hi hcache
        have hcache2 : q2.server.perm_cache.lookup (size, seed) = none := by
          rw [← hpc]; exact hcache
        have hgm2 := getMate_miss rand q2.server hi hcache2
        simp only [runMatching, hgm1] at h1
        simp only [runMatching, hgm2]
        have hrelmid := Rrel_mid key hrel
          { q1.server with perm_cache :=
              ((size, seed), permFor rand size seed) :: q1.server.perm_cache }
          { q2.server with perm_cache :=
              ((size, seed), permFor rand size seed) :: q2.server.perm_cache }
          (.getMate size seed i) rfl rfl (by simp only []; rw [hpc])
        rcases hce1 : compare_exchange key
            { q1 with
              server := { q1.server with perm_cache :=
                ((size, seed), permFor rand size seed) ::
                  q1.server.perm_cache }
              trace := q1.trace ++ [.getMate size seed i] }
            (a_start + i) (b_start + (permFor rand size seed).getD i 0) with
          e | mid1
        · rw [hce1] at h1
          exact absurd h1 (by simp)
        · rw [hce1] at h1
          obtain ⟨mid2, hce2, hrelmid2⟩ :=
            rel_compare_exchange key hrelmid hce1
          rw [hce2]
          exact ih _ _ _ hrelmid2 h1
    · have hgm1 := getMate_oob rand q1.server size seed i hi
      have hgm2 := getMate_oob rand q2.server size seed i hi
      simp only [runMatching, hgm1] at h1
      exact absurd h1 (by simp)

theorem rel_region_ce (key : Nat) (seeds : Nat → Nat)
    (rand : Nat → Nat → Nat) (a_start b_start size : Nat) :
    ∀ (c : Nat) (q1 q2 q1' : Run), Rrel key q1 q2 →
      region_compare_exchange key seeds rand q1 a_start b_start size c =
        .ok q1' →
      ∃ q2', region_compare_exchange key seeds rand q2 a_start b_start size
          c = .ok q2' ∧ Rrel key q1' q2' := by
  intro c
  induction c with
  | zero =>
    intro q1 q2 q1' hrel h1
    simp only [region_compare_exchange] at h1 ⊢
    exact ⟨q2, rfl, (Except.ok.inj h1) ▸ hrel⟩
  | succ c ih =>
    intro q1 q2 q1' hrel h1
    have hsc : q1.seedCtr = q2.seedCtr := hrel.2.2.2.2.2.2.1
    simp only [region_compare_exchange] at h1 ⊢
    have hrelmid : Rrel key { q1 with seedCtr := q1.seedCtr + 1 }
        { q2 with seedCtr := q2.seedCtr + 1 } := by
      obtain ⟨hn, hlen, hcc, hwc, hpc, hnc, hsc2, htr, hwf1, hwf2⟩ := hrel
      exact ⟨hn, hlen, hcc, hwc, hpc, hnc, by simp only []; omega, htr,
        hwf1, hwf2⟩
    rcases hrm1 : runMatching key rand a_start b_start size
        (seeds q1.seedCtr) { q1 with seedCtr := q1.seedCtr + 1 }
        (List.range size) with e | mid1
    · rw [hrm1] at h1
      exact absurd h1 (by simp)
    · rw [hrm1] at h1
      obtain ⟨mid2, hrm2, hrelmid2⟩ :=
        rel_runMatching key rand a_start b_start size (seeds q1.seedCtr)
          (List.range size) _ _ _ hrelmid hrm1
      rw [hsc] at hrm2
      rw [hrm2]
      exact ih _ _ _ hrelmid2 h1

theorem rel_runSchedule (key : Nat) (seeds : Nat → Nat)
    (rand : Nat → Nat → Nat) :
    ∀ (ps : List (Nat × Nat × Nat)) (q1 q2 q1' : Run), Rrel key q1 q2 →
      runSchedule key seeds rand q1 ps = .ok q1' →
      ∃ q2', runSchedule key seeds rand q2 ps = .ok q2' ∧
        Rrel key q1' q2' := by
  intro ps
  induction ps with
  | nil =>
    intro q1 q2 q1' hrel h1
    simp only [runSchedule] at h1 ⊢
    exact ⟨q2, rfl, (Except.ok.inj h1) ▸ hrel⟩
  | cons p rest ih =>
    obtain ⟨a, b, sz⟩ := p
    intro q1 q2 q1' hrel h1
    simp only [runSchedule] at h1 ⊢
    rcases hrc1 : region_compare_exchange key seeds rand q1 a b sz 4 with
      e | mid1
    · rw [hrc1] at h1
      exact absurd h1 (by simp)
    · rw [hrc1] at h1
      obtain ⟨mid2, hrc2, hrelmid2⟩ :=
        rel_region_ce key seeds rand a b sz 4 _ _ _ hrel hrc1
      rw [hrc2]
      exact ih _ _ _ hrelmid2 h1

/-! ## Bounds of the schedule: every region pair stays inside the array -/

theorem shellsortPasses_bounds {n offset : Nat}
    (hd : offset ∣ n) :
    ∀ p ∈ shellsortPasses offset (n / offset),
      p.1 + p.2.2 ≤ n ∧ p.2.1 + p.2.2 ≤ n := by
  have hnr : n / offset * offset = n := Nat.div_mul_cancel hd
  have hb : ∀ x : Nat, x + 1 ≤ n / offset → x * offset + offset ≤ n := by
    intro x hx
    have h1 : x * offset + offset = (x + 1) * offset :=
      (Nat.succ_mul x offset).symm
    rw [h1]
    calc (x + 1) * offset ≤ n / offset * offset :=
          Nat.mul_le_mul_right offset hx
      _ = n := hnr
  intro p hp
  simp only [shellsortPasses, List.mem_append] at hp
  rcases hp with ((((hp | hp) | hp) | hp) | hp) | hp
  · obtain ⟨i, hi, rfl⟩ := List.mem_map.mp hp
    rw [List.mem_range] at hi
    exact ⟨hb i (by omega), hb (i + 1) (by omega)⟩
  · obtain ⟨i, hi, rfl⟩ := List.mem_map.mp hp
    rw [List.mem_reverse, List.mem_range] at hi
    exact ⟨hb (i + 1) (by omega), hb i (by omega)⟩
  · split at hp
    · obtain ⟨i, hi, rfl⟩ := List.mem_map.mp hp
      rw [List.mem_range] at hi
      exact ⟨hb i (by omega), hb (i + 3) (by omega)⟩
    · exact absurd hp (by simp)
  · split at hp
    · obtain ⟨i, hi, rfl⟩ := List.mem_map.mp hp
      rw [List.mem_range] at hi
      exact ⟨hb i (by omega), hb (i + 2) (by omega)⟩
    · exact absurd hp (by simp)
  · obtain ⟨i, hi, rfl⟩ := List.mem_map.mp hp
    rw [List.mem_range'] at hi
    obtain ⟨t, ht, rfl⟩ := hi
    exact ⟨hb _ (by omega), hb _ (by omega)⟩
  · obtain ⟨i, hi, rfl⟩ := List.mem_map.mp hp
    rw [List.mem_range'] at hi
    obtain ⟨t, ht, rfl⟩ := hi
    exact ⟨hb _ (by omega), hb _ (by omega)⟩

theorem scheduleAux_bounds (n : Nat) :
    ∀ (j : Nat), 2 ^ j ∣ n →
      ∀ p ∈ scheduleAux n (2 ^ j), p.1 + p.2.2 ≤ n ∧ p.2.1 + p.2.2 ≤ n := by
  intro j
  induction j with
  | zero =>
    intro hd p hp
    rw [scheduleAux] at hp
    simp only [pow_zero] at hp hd
    rw [if_neg (by omega)] at hp
    rcases List.mem_append.mp hp with hp1 | hp2
    · exact shellsortPasses_bounds hd p hp1
    · rw [show (1 : Nat) / 2 = 0 from rfl, scheduleAux] at hp2
      rw [if_pos rfl] at hp2
      exact absurd hp2 (by simp)
  | succ j ih =>
    intro hd p hp
    have h0 : (2 : Nat) ^ (j + 1) ≠ 0 := (pow_pos (by omega) (j + 1)).ne'
    rw [scheduleAux, if_neg h0] at hp
    have h2 : 2 ^ (j + 1) / 2 = 2 ^ j := by
      rw [pow_succ]
      exact Nat.mul_div_cancel _ (by omega)
    rw [h2] at hp
    rcases List.mem_append.mp hp with hp1 | hp2
    · exact shellsortPasses_bounds hd p hp1
    · exact ih (dvd_trans (pow_dvd_pow 2 (Nat.le_succ j)) hd) p hp2

theorem schedulePairs_bounds {k : Nat} (hk : 1 ≤ k) :
    ∀ p ∈ schedulePairs (2 ^ k),
      p.1 + p.2.2 ≤ 2 ^ k ∧ p.2.1 + p.2.2 ≤ 2 ^ k := by
  unfold schedulePairs
  have h2 : 2 ^ k / 2 = 2 ^ (k - 1) := by
    obtain ⟨m, rfl⟩ : ∃ m, k = m + 1 := ⟨k - 1, by omega⟩
    rw [pow_succ]
    exact Nat.mul_div_cancel _ (by omega)
  rw [h2]
  exact scheduleAux_bounds (2 ^ k) (k - 1) (pow_dvd_pow 2 (by omega))

/-! ## The emitted schedule equals the specification's section-4.1 schedule -/

theorem shellsortPasses_eq_spec (off nr : Nat) :
    shellsortPasses off nr =
      (specRegionPasses nr).map (fun p => (p.1 * off, p.2 * off, off)) := by
  unfold shellsortPasses specRegionPasses
  simp only [List.map_append, List.map_map,
    apply_ite (List.map (fun p : Nat × Nat => (p.1 * off, p.2 * off, off))),
    List.map_nil]
  rfl

theorem specOffsets_succ (j : Nat) :
    specOffsets (j + 1) = 2 ^ j :: specOffsets j := by
  unfold specOffsets
  rw [List.range_succ, List.reverse_append]
  rfl

theorem scheduleAux_eq_spec (n : Nat) :
    ∀ j, scheduleAux n (2 ^ j) = specSchedule n (specOffsets (j + 1)) := by
  intro j
  induction j with
  | zero =>
    rw [scheduleAux, if_neg (by simp)]
    simp only [pow_zero]
    rw [show (1 : Nat) / 2 = 0 from rfl, scheduleAux, if_pos rfl]
    rw [specOffsets_succ]
    show shellsortPasses 1 (n / 1) ++ [] = specSchedule n (2 ^ 0 :: specOffsets 0)
    rw [specSchedule]
    rw [show specOffsets 0 = [] from rfl, show specSchedule n [] = [] from rfl]
    rw [shellsortPasses_eq_spec]
    rfl
  | succ j ih =>
    have h0 : (2 : Nat) ^ (j + 1) ≠ 0 := (pow_pos (by omega) (j + 1)).ne'
    have h2 : 2 ^ (j + 1) / 2 = 2 ^ j := by
      rw [pow_succ]
      exact Nat.mul_div_cancel _ (by omega)
    rw [scheduleAux, if_neg h0, h2, ih, specOffsets_succ (j + 1)]
    rw [specSchedule]
    rw [shellsortPasses_eq_spec]

theorem map_getD_of_perm {l : List Nat} {size : Nat}
    (h : l.Perm (List.range size)) :
    (List.range size).map (fun j => l.getD j 0) = l := by
  have hlen : l.length = size := by simpa using h.length_eq
  subst hlen
  exact map_getD_self l

/-! ## The claims -/

/-- Claim C6: `GetPair(i, j)` with both indices in `[0, N)` returns the
current pair `(A[i], A[j])` and increments the comparisons counter by exactly
one — each call counts as one comparison, the case `i = j` included, since
the statement quantifies over every in-range pair — and fails with
`OutOfRange` when either index lies outside `[0, N)`. -/
theorem C6_getPair_contract (s : ServerState) (i j : Int) :
    ((0 ≤ i ∧ i < (s.n : Int) ∧ 0 ≤ j ∧ j < (s.n : Int)) →
      ShellSortServer.GetPair s i j =
        (.ok (s.encrypted_array.getD i.toNat dTok,
              s.encrypted_array.getD j.toNat dTok),
         { s with comparison_count := s.comparison_count + 1 })) ∧
    (¬(0 ≤ i ∧ i < (s.n : Int) ∧ 0 ≤ j ∧ j < (s.n : Int)) →
      (ShellSortServer.GetPair s i j).1 = .error .outOfRange) := by
  constructor
  · intro h
    unfold ShellSortServer.GetPair
    rw [if_pos h]
  · intro h
    rw [getPair_fail s i j h]

theorem C6_witness :
    ShellSortServer.GetPair sampleServer 0 1 =
      (.ok (sampleServer.encrypted_array.getD (0 : Int).toNat dTok,
            sampleServer.encrypted_array.getD (1 : Int).toNat dTok),
       { sampleServer with
          comparison_count := sampleServer.comparison_count + 1 }) ∧
    (ShellSortServer.GetPair sampleServer 5 0).1 = .error .outOfRange :=
  ⟨(C6_getPair_contract sampleServer 0 1).1 (by decide),
   (C6_getPair_contract sampleServer 5 0).2 (by decide)⟩

/-- Claim C10: a `GetPair` call with an out-of-range index still increments
the comparisons counter before aborting with `OutOfRange` — the increment is
performed on the servicer object before the bounds check, so a rejected call
mutates server state and the counter counts failed calls too. -/
theorem C10_getPair_failure_mutates (s : ServerState) (i j : Int)
    (h : ¬(0 ≤ i ∧ i < (s.n : Int) ∧ 0 ≤ j ∧ j < (s.n : Int))) :
    ShellSortServer.GetPair s i j =
      (.error .outOfRange,
       { s with comparison_count := s.comparison_count + 1 }) :=
  getPair_fail s i j h

theorem C10_witness :
    ShellSortServer.GetPair sampleServer (-1) 0 =
      (.error .outOfRange,
       { sampleServer with
          comparison_count := sampleServer.comparison_count + 1 }) :=
  C10_getPair_failure_mutates sampleServer (-1) 0 (by decide)

/-- Claim C7: the `comparisons` and `writes` counters never decrease under
`GetPair`, `WritePair`, `GetMate` or `GetFinalArray` (the last is pure), and
both `Initialize` and `UseHashArrayForSorting` reset them to zero and clear
the permutation cache. -/
theorem C7_counter_lifecycle :
    (∀ (s : ServerState) (i j : Int),
      s.comparison_count ≤
          (ShellSortServer.GetPair s i j).2.comparison_count ∧
      s.write_count ≤ (ShellSortServer.GetPair s i j).2.write_count) ∧
    (∀ (s : ServerState) (i j : Int) (na nb : FToken),
      s.comparison_count ≤
          (ShellSortServer.WritePair s i j na nb).2.comparison_count ∧
      s.write_count ≤ (ShellSortServer.WritePair s i j na nb).2.write_count) ∧
    (∀ (rand : Nat → Nat → Nat) (s : ServerState) (size seed i : Nat),
      s.comparison_count ≤
          (ShellSortServer.GetMate rand s size seed i).2.comparison_count ∧
      s.write_count ≤
          (ShellSortServer.GetMate rand s size seed i).2.write_count) ∧
    (∀ s : ServerState, (ShellSortServer.GetFinalArray s).2 = s) ∧
    (∀ (s : ServerState) (cells : List FToken),
      (ShellSortServer.Initialize s cells).2.comparison_count = 0 ∧
      (ShellSortServer.Initialize s cells).2.write_count = 0 ∧
      (ShellSortServer.Initialize s cells).2.perm_cache = []) ∧
    (∀ s : ServerState, s.hash_finalized = true →
      (ShellSortServer.UseHashArrayForSorting s).2.comparison_count = 0 ∧
      (ShellSortServer.UseHashArrayForSorting s).2.write_count = 0 ∧
      (ShellSortServer.UseHashArrayForSorting s).2.perm_cache = []) := by
  refine ⟨?_, ?_, ?_, ?_, ?_, ?_⟩
  · intro s i j
    unfold ShellSortServer.GetPair
    split <;> refine ⟨?_, ?_⟩ <;> (simp only []; omega)
  · intro s i j na nb
    unfold ShellSortServer.WritePair
    split <;> refine ⟨?_, ?_⟩ <;> (simp only []; omega)
  · intro rand s size seed i
    rw [getMate_fields rand s size seed i]
    exact ⟨le_refl _, le_refl _⟩
  · intro s
    rfl
  · intro s cells
    exact ⟨rfl, rfl, rfl⟩
  · intro s h
    unfold ShellSortServer.UseHashArrayForSorting
    rw [h]
    exact ⟨rfl, rfl, rfl⟩

theorem C7_witness :
    (ShellSortServer.UseHashArrayForSorting
        sampleHashServer).2.comparison_count = 0 ∧
    (ShellSortServer.UseHashArrayForSorting
        sampleHashServer).2.write_count = 0 ∧
    (ShellSortServer.UseHashArrayForSorting
        sampleHashServer).2.perm_cache = [] :=
  C7_counter_lifecycle.2.2.2.2.2 sampleHashServer rfl

/-- Claim C8: for every integer `v` with `0 ≤ v < 2^32`,
`decrypt(encrypt(v)) = v` under the same key; `encrypt` raises `ValueError`
for negative `v`. -/
theorem C8_encryption_roundtrip (key nonce : Nat) (v : Int) :
    (0 ≤ v → v < 4294967296 →
      ∃ t, SecureEncryption.encrypt key nonce v = .ok t ∧
        SecureEncryption.decrypt key t = .ok v.toNat) ∧
    (v < 0 → SecureEncryption.encrypt key nonce v = .error "ValueError") := by
  constructor
  · intro h0 h32
    obtain ⟨w, rfl⟩ : ∃ w : Nat, v = (w : Int) := ⟨v.toNat, by omega⟩
    have hw : w < 4294967296 := by exact_mod_cast h32
    refine ⟨_, encrypt_ok key nonce hw, ?_⟩
    rw [Int.toNat_natCast]
    exact decrypt_tok key nonce hw
  · intro hneg
    unfold SecureEncryption.encrypt
    rw [if_pos hneg]

theorem C8_witness :
    (∃ t, SecureEncryption.encrypt 1 2 5 = .ok t ∧
      SecureEncryption.decrypt 1 t = .ok (5 : Int).toNat) ∧
    SecureEncryption.encrypt 1 2 (-1) = .error "ValueError" :=
  ⟨(C8_encryption_roundtrip 1 2 5).1 (by decide) (by decide),
   (C8_encryption_roundtrip 1 2 (-1)).2 (by decide)⟩

/-- Claim C3: for distinct in-range indices whose cells decrypt to `a` and
`b`, `compare_and_prepare_writes` returns ciphertexts decrypting to
`(min a b, max a b)` when `idx_a < idx_b` and to `(max a b, min a b)` when
`idx_a > idx_b`; when `a = b` the original order of the pair is preserved. -/
theorem C3_compare_exchange_direction (key nonce : Nat) (s : ServerState)
    (ia ib a b : Nat) (hne : ia ≠ ib) (hia : ia < s.n) (hib : ib < s.n)
    (hdeca : SecureEncryption.decrypt key (s.encrypted_array.getD ia dTok) =
      .ok a)
    (hdecb : SecureEncryption.decrypt key (s.encrypted_array.getD ib dTok) =
      .ok b)
    (ha32 : a < 4294967296) (hb32 : b < 4294967296) :
    ∃ ea eb s1,
      ShellSortClient.compare_and_prepare_writes key nonce s ia ib =
        .ok ((ea, eb), s1) ∧
      (ia < ib → SecureEncryption.decrypt key ea = .ok (min a b) ∧
        SecureEncryption.decrypt key eb = .ok (max a b)) ∧
      (ib < ia → SecureEncryption.decrypt key ea = .ok (max a b) ∧
        SecureEncryption.decrypt key eb = .ok (min a b)) ∧
      (a = b → SecureEncryption.decrypt key ea = .ok a ∧
        SecureEncryption.decrypt key eb = .ok b) := by
  have hmin : min a b < 4294967296 := by omega
  have hmax : max a b < 4294967296 := by omega
  refine ⟨_, _, _, capw_ok key nonce s hia hib hdeca hdecb ha32 hb32,
    ?_, ?_, ?_⟩
  · intro hlt
    rw [if_pos hlt, if_pos hlt]
    exact ⟨decrypt_tok key nonce hmin, decrypt_tok key (nonce + 1) hmax⟩
  · intro hgt
    have hnlt : ¬ia < ib := by omega
    rw [if_neg hnlt, if_neg hnlt]
    exact ⟨decrypt_tok key nonce hmax, decrypt_tok key (nonce + 1) hmin⟩
  · intro hab
    subst hab
    simp only [Nat.min_self, Nat.max_self]
    constructor
    · split <;> exact decrypt_tok key nonce (by omega)
    · split <;> exact decrypt_tok key (nonce + 1) (by omega)

theorem C3_witness :
    ∃ ea eb s1,
      ShellSortClient.compare_and_prepare_writes 1 10 sampleServer 0 1 =
        .ok ((ea, eb), s1) ∧
      (0 < 1 → SecureEncryption.decrypt 1 ea = .ok (min 5 3) ∧
        SecureEncryption.decrypt 1 eb = .ok (max 5 3)) ∧
      (1 < 0 → SecureEncryption.decrypt 1 ea = .ok (max 5 3) ∧
        SecureEncryption.decrypt 1 eb = .ok (min 5 3)) ∧
      (5 = 3 → SecureEncryption.decrypt 1 ea = .ok 5 ∧
        SecureEncryption.decrypt 1 eb = .ok 3) :=
  C3_compare_exchange_direction 1 10 sampleServer 0 1 5 3 (by decide)
    (by decide) (by decide) (by rfl) (by rfl) (by decide) (by decide)

/-- Claim C5: for every `size ≥ 1`, every seed and every `i < size`, repeated
`GetMate(size, seed, i)` calls between two resets return the same value (the
permutation is memoised and the cache survives every non-reset operation),
and the map `i ↦ GetMate(size, seed, i)` over `[0, size)` is exactly a
permutation of `{0, …, size-1}` — for any draw stream of the seeded PRNG,
since the Fisher-Yates shuffle of `range size` is always a permutation. -/
theorem C5_getMate_deterministic_bijective (rand : Nat → Nat → Nat)
    (s : ServerState) (size seed i : Nat) (hcwf : cacheWF s)
    (hsize : 1 ≤ size) (hi : i < size) :
    (ShellSortServer.GetMate rand s size seed i).1 =
      (ShellSortServer.GetMate rand
        (ShellSortServer.GetMate rand s size seed i).2 size seed i).1 ∧
    ((List.range size).map (fun j =>
        ((ShellSortServer.GetMate rand s size seed j).1.toOption).getD
          0)).Perm (List.range size) ∧
    cacheWF (ShellSortServer.GetMate rand s size seed i).2 := by
  cases hcache : s.perm_cache.lookup (size, seed) with
  | some perm =>
    have hperm := hcwf _ _ _ hcache
    refine ⟨?_, ?_, ?_⟩
    · simp only [getMate_hit rand s hi hcache]
    · have hmapeq : (List.range size).map (fun j =>
          ((ShellSortServer.GetMate rand s size seed j).1.toOption).getD 0) =
          (List.range size).map (fun j => perm.getD j 0) := by
        apply List.map_congr_left
        intro j hj
        rw [getMate_hit rand s (List.mem_range.mp hj) hcache]
        rfl
      rw [hmapeq, map_getD_of_perm hperm]
      exact hperm
    · rw [getMate_hit rand s hi hcache]
      exact hcwf
  | none =>
    obtain ⟨v, s2, hgm, hv, hcwf2, hs2⟩ :=
      getMate_step rand s size seed i hi hcwf
    refine ⟨?_, ?_, ?_⟩
    · rw [getMate_miss rand s hi hcache]
      have hcache2 : ((((size, seed), permFor rand size seed) ::
          s.perm_cache).lookup (size, seed)) =
          some (permFor rand size seed) := List.lookup_cons_self
      rw [getMate_hit rand _ hi hcache2]
    · have hmapeq : (List.range size).map (fun j =>
          ((ShellSortServer.GetMate rand s size seed j).1.toOption).getD 0) =
          (List.range size).map
            (fun j => (permFor rand size seed).getD j 0) := by
        apply List.map_congr_left
        intro j hj
        rw [getMate_miss rand s (List.mem_range.mp hj) hcache]
        rfl
      rw [hmapeq, map_getD_of_perm (permFor_perm rand size seed)]
      exact permFor_perm rand size seed
    · rw [hgm]
      exact hcwf2

theorem C5_witness :
    (ShellSortServer.GetMate (fun _ _ => 0) ShellSortServer.new 3 7 1).1 =
      (ShellSortServer.GetMate (fun _ _ => 0)
        (ShellSortServer.GetMate (fun _ _ => 0)
          ShellSortServer.new 3 7 1).2 3 7 1).1 ∧
    ((List.range 3).map (fun j =>
        ((ShellSortServer.GetMate (fun _ _ => 0)
          ShellSortServer.new 3 7 j).1.toOption).getD 0)).Perm
      (List.range 3) ∧
    cacheWF (ShellSortServer.GetMate (fun _ _ => 0)
      ShellSortServer.new 3 7 1).2 :=
  C5_getMate_deterministic_bijective (fun _ _ => 0) ShellSortServer.new 3 7 1
    (fun _ _ _ h => nomatch h) (by decide) (by decide)

/-- Claim C4: for every power of two `N = 2^k ≥ 2`, `randomized_shellsort`
terminates (its schedule is a total function here) and emits exactly the
region-pair sequence of section 4.1: for each offset starting at `N/2` and
halving down to `1`, with `num_regions = N/offset`, the shaker-forward,
shaker-backward, guarded brick 3-hop and 2-hop, even-adjacent and
odd-adjacent passes, each region pair rendered as its start indices. -/
theorem C4_schedule_matches_spec (n k : Nat) (hk : 1 ≤ k) (hn : n = 2 ^ k) :
    schedulePairs n = specSchedule n (specOffsets k) := by
  subst hn
  unfold schedulePairs
  have h2 : 2 ^ k / 2 = 2 ^ (k - 1) := by
    obtain ⟨m, rfl⟩ : ∃ m, k = m + 1 := ⟨k - 1, by omega⟩
    rw [pow_succ]
    exact Nat.mul_div_cancel _ (by omega)
  rw [h2, scheduleAux_eq_spec, show k - 1 + 1 = k from by omega]

theorem C4_witness :
    schedulePairs 2 = specSchedule 2 (specOffsets 1) :=
  C4_schedule_matches_spec 2 1 (by decide) (by decide)

/-- Claim C2: the multiset of plaintexts decrypted from the array is
invariant: a single compare-exchange on a well-formed run only permutes the
decrypted plaintexts (it re-encrypts the reordered pair onto the same two
indices), any successful prefix of region compare-exchanges preserves the
multiset — so it holds at every point during the sort — and a completed
`randomized_shellsort` run leaves a permutation of the initially uploaded
plaintexts. -/
theorem C2_multiset_preservation (key : Nat) :
    (∀ (r : Run) (ia ib : Nat) (r2 : Run), wfRun key r →
      compare_exchange key r ia ib = .ok r2 →
      (plaintexts key r2.server.encrypted_array).Perm
        (plaintexts key r.server.encrypted_array)) ∧
    (∀ (seeds : Nat → Nat) (rand : Nat → Nat → Nat)
        (ps : List (Nat × Nat × Nat)) (r r2 : Run), wfRun key r →
      runSchedule key seeds rand r ps = .ok r2 →
      (plaintexts key r2.server.encrypted_array).Perm
        (plaintexts key r.server.encrypted_array)) ∧
    (∀ (cells : List FToken) (seeds : Nat → Nat) (rand : Nat → Nat → Nat)
        (r2 : Run), wfArr key cells →
      randomized_shellsort key seeds rand (initRun cells) = .ok r2 →
      (plaintexts key r2.server.encrypted_array).Perm
        (plaintexts key cells)) := by
  refine ⟨?_, ?_, ?_⟩
  · intro r ia ib r2 hwf h
    exact (compare_exchange_pres key r ia ib r2 hwf h).2
  · intro seeds rand ps r r2 hwf h
    exact (runSchedule_pres key seeds rand ps r r2 hwf h).2
  · intro cells seeds rand r2 hwfc h
    unfold randomized_shellsort at h
    exact (runSchedule_pres key seeds rand _ _ r2 ⟨hwfc, rfl⟩ h).2

theorem C2_witness :
    (plaintexts 1 ((runSchedule 1 (fun _ => 7) (fun _ _ => 0) sampleRun
        [(0, 1, 1)]).toOption.getD sampleRun).server.encrypted_array).Perm
      (plaintexts 1 sampleRun.server.encrypted_array) :=
  (C2_multiset_preservation 1).2.1 (fun _ => 7) (fun _ _ => 0) [(0, 1, 1)]
    sampleRun _
    ⟨by
      intro t ht
      simp only [sampleRun, initRun, ShellSortServer.Initialize, sampleCells,
        ShellSortServer.new, List.mem_cons, List.not_mem_nil,
        or_false] at ht
      rcases ht with rfl | rfl
      · exact ⟨rfl, 5, by omega, rfl⟩
      · exact ⟨rfl, 3, by omega, rfl⟩, rfl⟩
    (by rfl)

/-- Claim C1: obliviousness.  For any two well-formed initial encrypted
arrays of the same power-of-two length and the same stream of generated
seeds (and the same server PRNG), both `randomized_shellsort` runs complete
and the sequences of store operations with their index arguments — the
`GetMate`, `GetPair` and `WritePair` calls — are identical, independent of
the plaintext values; in particular the trace carries exactly one
`WritePair` per `GetPair`, i.e. per compare-exchange, regardless of whether
the plaintext order changed. -/
theorem C1_obliviousness (key k : Nat) (seeds : Nat → Nat)
    (rand : Nat → Nat → Nat) (cells1 cells2 : List FToken)
    (h1 : wfArr key cells1) (h2 : wfArr key cells2)
    (hlen : cells1.length = cells2.length) (hn : cells1.length = 2 ^ k)
    (hk : 1 ≤ k) :
    ∃ r1 r2, randomized_shellsort key seeds rand (initRun cells1) = .ok r1 ∧
      randomized_shellsort key seeds rand (initRun cells2) = .ok r2 ∧
      r1.trace = r2.trace ∧
      countWritePair r1.trace = countGetPair r1.trace := by
  have hwf1 : wfRun key (initRun cells1) := ⟨h1, rfl⟩
  have hwf2 : wfRun key (initRun cells2) := ⟨h2, rfl⟩
  have hcwf1 : cacheWF (initRun cells1).server := by
    intro size seed perm hl
    exact absurd hl (by simp [initRun, ShellSortServer.Initialize])
  obtain ⟨r1, hrun1, hwfr1, hcwfr1, hnr1, hcntr1, hpermr1⟩ :=
    runSchedule_ok key seeds rand (schedulePairs (2 ^ k)) (initRun cells1)
      (fun p hp => schedulePairs_bounds hk p hp) hwf1 hcwf1 hn rfl
  have hrel0 : Rrel key (initRun cells1) (initRun cells2) :=
    ⟨hlen, hlen, rfl, rfl, rfl, rfl, rfl, rfl, hwf1, hwf2⟩
  obtain ⟨r2, hrun2, hrel⟩ :=
    rel_runSchedule key seeds rand (schedulePairs (2 ^ k)) _ _ _ hrel0 hrun1
  have hrs1 : randomized_shellsort key seeds rand (initRun cells1) =
      runSchedule key seeds rand (initRun cells1) (schedulePairs (2 ^ k)) := by
    unfold randomized_shellsort
    rw [show (initRun cells1).server.n = 2 ^ k from hn]
  have hrs2 : randomized_shellsort key seeds rand (initRun cells2) =
      runSchedule key seeds rand (initRun cells2) (schedulePairs (2 ^ k)) := by
    unfold randomized_shellsort
    rw [show (initRun cells2).server.n = 2 ^ k from by
      show cells2.length = 2 ^ k
      omega]
  refine ⟨r1, r2, ?_, ?_, ?_, ?_⟩
  · rw [hrs1]; exact hrun1
  · rw [hrs2]; exact hrun2
  · exact hrel.2.2.2.2.2.2.2.1
  · omega

theorem C1_witness :
    ∃ r1 r2, randomized_shellsort 1 (fun _ => 7) (fun _ _ => 0)
        (initRun sampleCells) = .ok r1 ∧
      randomized_shellsort 1 (fun _ => 7) (fun _ _ => 0)
        (initRun [fernetEncrypt 1 5 (packBytes 9),
                  fernetEncrypt 1 6 (packBytes 2)]) = .ok r2 ∧
      r1.trace = r2.trace ∧
      countWritePair r1.trace = countGetPair r1.trace :=
  C1_obliviousness 1 1 (fun _ => 7) (fun _ _ => 0) sampleCells
    [fernetEncrypt 1 5 (packBytes 9), fernetEncrypt 1 6 (packBytes 2)]
    (by
      intro t ht
      simp only [sampleCells, List.mem_cons, List.not_mem_nil,
        or_false] at ht
      rcases ht with rfl | rfl
      · exact ⟨rfl, 5, by omega, rfl⟩
      · exact ⟨rfl, 3, by omega, rfl⟩)
    (by
      intro t ht
      simp only [List.mem_cons, List.not_mem_nil, or_false] at ht
      rcases ht with rfl | rfl
      · exact ⟨rfl, 9, by omega, rfl⟩
      · exact ⟨rfl, 2, by omega, rfl⟩)
    (by rfl) (by rfl) (by decide)

/-- Claim C9 fails on the code: `SE_SDec` is AES-CBC with PKCS7 padding and
no authentication, so a byte string never produced by `SE_SEnc` can decrypt
without any error straight to an integer.  With the block permutation
abstracted as the byte map `testE`/`testD`, the forged wire bytes (a zero IV
followed by the block that CBC-decrypts to a pickle of `4`, ten junk bytes
and a one-byte pad) decrypt to `4`, yet no IV and no object give
`SE_SEnc` that output: every `SE_SEnc` plaintext block ends in eleven `0x0B`
pad bytes, while the forged block ends in `0x5A 0x01`. -/
theorem C9_counterexample :
    SE_SDec testD forgedData = some 4 ∧
    ∀ (iv : List Nat) (obj : Nat), iv.length = 16 →
      SE_SEnc testE iv obj ≠ forgedData := by
  constructor
  · decide
  · intro iv obj hlen heq
    have hpad : pad16 (pickleObj obj) = [128, 5, 75, obj % 256, 46,
        11, 11, 11, 11, 11, 11, 11, 11, 11, 11, 11] := rfl
    have hchunks : chunks16 (pad16 (pickleObj obj)) =
        [pad16 (pickleObj obj)] := rfl
    have hSE : SE_SEnc testE iv obj =
        iv ++ testE (xorB (pad16 (pickleObj obj)) iv) := by
      unfold SE_SEnc
      rw [hchunks]
      simp [concatB, cbcEncBlocks]
    rw [hSE, show forgedData = List.replicate 16 0 ++ testE forgedBlock
      from rfl] at heq
    obtain ⟨hiv, hct⟩ := List.append_inj heq (by simp [hlen])
    subst hiv
    have hxor : xorB (pad16 (pickleObj obj)) (List.replicate 16 0) =
        pad16 (pickleObj obj) := by
      rw [hpad, show (List.replicate 16 (0 : Nat)) =
        [0, 0, 0, 0, 0, 0, 0, 0, 0, 0, 0, 0, 0, 0, 0, 0] from rfl]
      have hx0 : ∀ x : Nat, Nat.xor x 0 = x := fun x => Nat.xor_zero x
      simp only [xorB, List.zipWith_cons_cons, List.zipWith_nil_right,
        List.zipWith_nil_left, hx0]
    rw [hxor, hpad] at hct
    rw [show testE forgedBlock =
      [129, 6, 76, 5, 47, 91, 91, 91, 91, 91, 91, 91, 91, 91, 91, 2]
      from by decide] at hct
    rw [show testE [128, 5, 75, obj % 256, 46,
        11, 11, 11, 11, 11, 11, 11, 11, 11, 11, 11] =
      129 :: 6 :: 76 :: ((obj % 256 + 1) % 256) :: 47 ::
        [12, 12, 12, 12, 12, 12, 12, 12, 12, 12, 12] from rfl] at hct
    simp at hct

/-- Claim C9 (amended): authenticated decryption holds for the Fernet-based
`SecureEncryption` the sort's own adapter uses — decrypting a token that was
not produced under the current key fails with `IntegrityError`, never
silently returning an integer — but it does not extend to the pipeline
adapter whose decrypt is `obfi.crypto.SE_SDec` (AES-CBC without
authentication), as the counterexample shows. -/
theorem C9_amended_fernet_authenticated (key : Nat) (t : FToken)
    (h : t.key ≠ key) :
    SecureEncryption.decrypt key t = .error "IntegrityError" := by
  unfold SecureEncryption.decrypt fernetDecrypt
  rw [if_neg h]

theorem C9_witness :
    SecureEncryption.decrypt 1 (fernetEncrypt 2 0 (packBytes 5)) =
      .error "IntegrityError" :=
  C9_amended_fernet_authenticated 1 (fernetEncrypt 2 0 (packBytes 5))
    (by decide)
